import Mathlib

/-!
# go-memoize: a memoizing cache in front of a call coalescer

A shallow embedding of `memoize.go`, `option.go` and `singleflight.go`.

* Go's `error` is `Option E` (`nil` is `none`).
* A Go map is a function into `Option`; `delete` and assignment are `Function.update`.
* Code that mutates the receiver returns the new receiver.
* The environment of a call is a `World`: the state the wrapped function can read and
  write, the readings `time.Now()` is going to deliver, and a log of the keys the
  wrapped function was invoked with.
* A sequential call that would wait forever on a `sync.WaitGroup` returns `none`.
* Concurrent callers of `do` are goroutines scheduled one atomic step at a time
  (`Flights`), with the call records on a heap.
-/

namespace Memoize

variable {K V E σ : Type}

/-! ## Time -/

/-- Go's `time.Time` on an ideal time line: the number of nanoseconds elapsed since the
zero instant (January 1, year 1, 00:00:00 UTC), which is the zero value of the type. -/
structure Time where
  ns : Int
deriving DecidableEq, Repr

/-- Go's `time.Duration`, a signed count of nanoseconds. -/
abbrev Duration := Int

/-- The zero value of `time.Time`. -/
def Time.zero : Time := ⟨0⟩

/-- Go's `t.IsZero()`: the instant is the zero instant. -/
def Time.IsZero (t : Time) : Bool := t.ns == 0

/-- Go's `t.After(u)`: the instant `t` is strictly later than `u`. -/
def Time.After (t u : Time) : Bool := decide (u.ns < t.ns)

/-- Go's `t.Add(d)`. -/
def Time.Add (t : Time) (d : Duration) : Time := ⟨t.ns + d⟩

/-- What a call runs in. `clock i` is the `i`-th reading `time.Now()` delivers, in
nanoseconds since the zero instant (the current time never precedes it), `reads` counts
the readings taken so far, `user` is the state the wrapped function works on, and
`invoked` logs the keys the wrapped function has been invoked with, oldest first. -/
structure World (K σ : Type) where
  user : σ
  clock : Nat → Nat
  reads : Nat
  invoked : List K

/-- Go's `time.Now()`: deliver the next reading of the clock. -/
def World.timeNow (w : World K σ) : Time × World K σ :=
  (⟨(w.clock w.reads : Int)⟩, { w with reads := w.reads + 1 })

/-! ## memoize.go, option.go: data -/

/-- The struct `type entry[V any] struct { val V; expiresAt time.Time }`. -/
structure entry (V : Type) where
  val : V
  expiresAt : Time

/-- The method `func (e *entry[V]) expired() bool`, memoize.go:13-15:
`!e.expiresAt.IsZero() && time.Now().After(e.expiresAt)`. The clock is read only when
the left operand of `&&` is true. -/
def entry.expired (e : entry V) (w : World K σ) : Bool × World K σ :=
  if e.expiresAt.IsZero then (false, w)
  else (w.timeNow.1.After e.expiresAt, w.timeNow.2)

/-- The struct `type config struct { ttl time.Duration }`, option.go:5-7. -/
structure config where
  ttl : Duration
deriving DecidableEq, Repr

/-- The type `type Option func(*config)`, option.go:10 (named `Opt` here, `Option` being taken). -/
abbrev Opt := config → config

/-- The function `func WithTTL(d time.Duration) Option`, option.go:13-17. -/
def WithTTL (d : Duration) : Opt := fun c => { c with ttl := d }

/-! ## singleflight.go -/

/-- The struct `type call[V any] struct { wg sync.WaitGroup; val V; err error }`; `wg` is the
counter of the wait group, and `wg.Wait()` returns once it is zero. -/
structure call (V E : Type) where
  wg : Nat
  val : V
  err : Option E

/-- The struct `type singleflight[K, V] struct { mu sync.Mutex; m map[K]*call[V] }`; `m = none` is
the nil map of the zero value. -/
structure singleflight (K V E : Type) where
  m : Option (K → Option (call V E))

/-- The registry `sf.m` as `do` sees it after singleflight.go:20-22,
`if sf.m == nil { sf.m = make(map[K]*call[V]) }`: a nil registry is an empty one. -/
def singleflight.records (sf : singleflight K V E) : K → Option (call V E) :=
  match sf.m with
  | none => fun _ => none
  | some m => m

/-- The method `func (sf *singleflight[K, V]) do(key K, fn func() (V, error)) (V, error)`,
singleflight.go:18-41 (`Do` in export_test.go), run with no other goroutine around. The
producer `fn` works on a state `ρ` of its own. The result is `none` when the call would
wait on a record nobody is going to complete. -/
def singleflight.Do {ρ : Type} [DecidableEq K] [Inhabited V] (sf : singleflight K V E) (key : K)
    (fn : ρ → (V × Option E) × ρ) (r : ρ) :
    Option ((V × Option E) × singleflight K V E × ρ) :=
  -- lines 20-22: a nil registry becomes an empty one
  let m := sf.records
  match m key with
  | some c =>
    -- lines 23-27: join the record, wait for its completion
    if c.wg = 0 then some ((c.val, c.err), ⟨some m⟩, r) else none
  | none =>
    -- lines 28-31
    let c : call V E := { wg := 0, val := default, err := none }
    let c := { c with wg := c.wg + 1 }
    let m := Function.update m key (some c)
    -- lines 33-34
    let out := fn r
    let c := { c with val := out.1.1, err := out.1.2 }
    let c := { c with wg := c.wg - 1 }
    -- lines 36-38
    let m := Function.update m key none
    -- line 40
    some ((c.val, c.err), ⟨some m⟩, out.2)

/-! ## memoize.go: the cache -/

/-- The struct `type Memo[K comparable, V any] struct`, memoize.go:18-24, without its lock. The
wrapped function `fn` receives the key and the user state and returns its results and
the new user state. -/
structure Memo (K V E σ : Type) where
  fn : K → σ → (V × Option E) × σ
  cfg : config
  cache : K → Option (entry V)
  sf : singleflight K V E

/-- The function `func New(fn, opts ...Option) *Memo[K, V]`, memoize.go:27-37. -/
def New (fn : K → σ → (V × Option E) × σ) (opts : List Opt) : Memo K V E σ :=
  { fn := fn
    cfg := opts.foldl (fun cfg o => o cfg) ⟨0⟩
    cache := fun _ => none
    sf := ⟨none⟩ }

/-- The guarded lookup of memoize.go:42 and :51,
`if e, ok := m.cache[key]; ok && !e.expired()`: the value of a valid entry. -/
def cached (cache : K → Option (entry V)) (key : K) (w : World K σ) :
    Option V × World K σ :=
  match cache key with
  | none => (none, w)
  | some e => if (e.expired w).1 then (none, (e.expired w).2) else (some e.val, (e.expired w).2)

/-- The closure handed to the coalescer, memoize.go:48-72. It works on the cache and the
world. -/
def Memo.compute [DecidableEq K] (m : Memo K V E σ) (key : K)
    (s : (K → Option (entry V)) × World K σ) :
    (V × Option E) × ((K → Option (entry V)) × World K σ) :=
  -- lines 50-55
  match (cached s.1 key s.2).1 with
  | some v => ((v, none), (s.1, (cached s.1 key s.2).2))
  | none =>
    let w := (cached s.1 key s.2).2
    -- line 57
    let out := m.fn key w.user
    let w := { w with user := out.2, invoked := w.invoked ++ [key] }
    match out.1.2 with
    | some err => ((out.1.1, some err), (s.1, w))
    | none =>
      -- lines 62-65
      let e : entry V := { val := out.1.1, expiresAt := Time.zero }
      let ew : entry V × World K σ :=
        if m.cfg.ttl > 0 then ({ e with expiresAt := w.timeNow.1.Add m.cfg.ttl }, w.timeNow.2)
        else (e, w)
      -- lines 67-71
      ((out.1.1, none), (Function.update s.1 key (some ew.1), ew.2))

/-- The method `func (m *Memo[K, V]) Get(key K) (V, error)`, memoize.go:40-73. -/
def Memo.Get [DecidableEq K] [Inhabited V] (m : Memo K V E σ) (key : K) (w : World K σ) :
    Option ((V × Option E) × Memo K V E σ × World K σ) :=
  match (cached m.cache key w).1 with
  | some v => some ((v, none), m, (cached m.cache key w).2)
  | none =>
    match m.sf.Do key (m.compute key) (m.cache, (cached m.cache key w).2) with
    | none => none
    | some (out, sf, cache, w) => some (out, { m with cache := cache, sf := sf }, w)

/-- The method `func (m *Memo[K, V]) Forget(key K)`, memoize.go:76-80. -/
def Memo.Forget [DecidableEq K] (m : Memo K V E σ) (key : K) : Memo K V E σ :=
  { m with cache := Function.update m.cache key none }

/-- The method `func (m *Memo[K, V]) Purge()`, memoize.go:83-87. -/
def Memo.Purge (m : Memo K V E σ) : Memo K V E σ :=
  { m with cache := fun _ => none }

/-- The function `func Do(fn, opts ...Option) func(K) (V, error)`, memoize.go:91-94: the `Get` of a
fresh `Memo`; the memo the returned function closes over is passed along. -/
def Do [DecidableEq K] [Inhabited V] (fn : K → σ → (V × Option E) × σ) (opts : List Opt) :
    Memo K V E σ × (Memo K V E σ → K → World K σ →
      Option ((V × Option E) × Memo K V E σ × World K σ)) :=
  (New fn opts, fun m => m.Get)

/-- No valid entry for `key` at the world `w`: none at all, or one whose `expired()`
answers true there. -/
def stale (cache : K → Option (entry V)) (key : K) (w : World K σ) : Prop :=
  cache key = none ∨ ∃ e, cache key = some e ∧ (e.expired w).1 = true

/-! ## Sequences of calls -/

/-- One call on a memo. -/
inductive Op (K : Type) where
  | get (key : K)
  | forget (key : K)
  | purge
deriving DecidableEq, Repr

/-- One call made on the memo; a `Get` also delivers its results. -/
def Memo.step [DecidableEq K] [Inhabited V] (m : Memo K V E σ) (op : Op K) (w : World K σ) :
    Option (List (V × Option E) × Memo K V E σ × World K σ) :=
  match op with
  | .get key =>
    match m.Get key w with
    | none => none
    | some (out, m', w') => some ([out], m', w')
  | .forget key => some ([], m.Forget key, w)
  | .purge => some ([], m.Purge, w)

/-- The calls of a list made one after the other, each in the world the one before left;
the results of the `Get`s are collected in order. -/
def Memo.run [DecidableEq K] [Inhabited V] (m : Memo K V E σ) :
    List (Op K) → World K σ → Option (List (V × Option E) × Memo K V E σ × World K σ)
  | [], w => some ([], m, w)
  | op :: ops, w =>
    match m.step op w with
    | none => none
    | some (outs, m', w') =>
      match m'.run ops w' with
      | none => none
      | some (outs', m'', w'') => some (outs ++ outs', m'', w'')

/-- No call is in flight: the registry of the coalescer holds no record. -/
def Memo.quiet (m : Memo K V E σ) : Prop := ∀ k, m.sf.records k = none

/-- The call neither forgets `key` nor purges. -/
def Op.keeps [DecidableEq K] (key : K) (op : Op K) : Bool :=
  match op with
  | .get _ => true
  | .forget k => decide (k ≠ key)
  | .purge => false

/-- The keys the `Get`s of a list of calls ask for, in order. -/
def asked : List (Op K) → List K
  | [] => []
  | .get key :: ops => key :: asked ops
  | .forget _ :: ops => asked ops
  | .purge :: ops => asked ops

/-- The function value `Do` returns (a `Get` bound to its memo), called on the keys of a
list one after the other, each call in the world the one before left; the results are
collected in order. -/
def callEach [DecidableEq K] [Inhabited V]
    (f : Memo K V E σ → K → World K σ → Option ((V × Option E) × Memo K V E σ × World K σ)) :
    Memo K V E σ → List K → World K σ →
      Option (List (V × Option E) × Memo K V E σ × World K σ)
  | m, [], w => some ([], m, w)
  | m, key :: keys, w =>
    match f m key w with
    | none => none
    | some (out, m', w') =>
      match callEach f m' keys w' with
      | none => none
      | some (outs, m'', w'') => some (out :: outs, m'', w'')

/-! ## Goroutines inside `do` -/

/-- Where a goroutine stands in `do` (singleflight.go:18-41); `c` is the address of the
call record it holds.

* `start`: before line 19;
* `waiting`: at line 25, having found a record for its key (lines 19-24);
* `running`: at line 33, having registered a record of its own (lines 19-31);
* `finishing`: at line 34, the producer's results assigned to the record;
* `deleting`: at line 36, `wg.Done()` done;
* `returning`: at line 40, the record removed from the registry;
* `done`: returned. -/
inductive PC (K V E : Type) where
  | start (key : K)
  | waiting (c : Nat)
  | running (key : K) (c : Nat)
  | finishing (key : K) (c : Nat)
  | deleting (key : K) (c : Nat)
  | returning (c : Nat)
  | done (out : V × Option E)

/-- One coalescer shared by the goroutines of `T`. The registry maps a key to the
address of its record (`map[K]*call[V]`), `heap` holds the records, `next` is the first
free address, `pc` says where each goroutine stands, `shared` is the state the producers
work on and `calls` counts the producer invocations. -/
structure Flights (K V E ρ T : Type) where
  m : Option (K → Option Nat)
  heap : Nat → call V E
  next : Nat
  pc : T → PC K V E
  shared : ρ
  calls : Nat

/-- The registry after singleflight.go:20-22: a nil registry is an empty one. -/
def Flights.records {ρ T : Type} (s : Flights K V E ρ T) : K → Option Nat :=
  match s.m with
  | none => fun _ => none
  | some m => m

/-- One atomic step of goroutine `t` in `do`; `none` when `t` has returned or is blocked
in `wg.Wait()`. The sections under `sf.mu` (lines 19-24, 19-31 and 36-38) are atomic by
mutual exclusion; the other steps touch the record of the goroutine only, whose `val`
and `err` are written before `wg.Done()` and read after `wg.Wait()`. `prod t` is the
producer goroutine `t` passed to `do`; its run is one step, as nothing else in `do`
reads or writes the state it works on. -/
def Flights.step {ρ T : Type} [DecidableEq K] [DecidableEq T] [Inhabited V]
    (prod : T → ρ → (V × Option E) × ρ) (s : Flights K V E ρ T) (t : T) :
    Option (Flights K V E ρ T) :=
  match s.pc t with
  | .start key =>
    match s.records key with
    | some c =>
      -- lines 19-24
      some { s with m := some s.records, pc := Function.update s.pc t (.waiting c) }
    | none =>
      -- lines 19-22, 28-31
      some { s with
        m := some (Function.update s.records key (some s.next))
        heap := Function.update s.heap s.next { wg := 0 + 1, val := default, err := none }
        next := s.next + 1
        pc := Function.update s.pc t (.running key s.next) }
  | .waiting c =>
    -- lines 25-26
    if (s.heap c).wg = 0 then
      some { s with pc := Function.update s.pc t (.done ((s.heap c).val, (s.heap c).err)) }
    else none
  | .running key c =>
    -- line 33
    some { s with
      heap := Function.update s.heap c
        { s.heap c with val := (prod t s.shared).1.1, err := (prod t s.shared).1.2 }
      shared := (prod t s.shared).2
      calls := s.calls + 1
      pc := Function.update s.pc t (.finishing key c) }
  | .finishing key c =>
    -- line 34
    some { s with
      heap := Function.update s.heap c { s.heap c with wg := (s.heap c).wg - 1 }
      pc := Function.update s.pc t (.deleting key c) }
  | .deleting key c =>
    -- lines 36-38
    some { s with
      m := some (Function.update s.records key none)
      pc := Function.update s.pc t (.returning c) }
  | .returning c =>
    -- line 40
    some { s with pc := Function.update s.pc t (.done ((s.heap c).val, (s.heap c).err)) }
  | .done _ => none

/-- The goroutines scheduled one after the other as the list says; `none` when one of
them cannot move at its turn. -/
def Flights.run {ρ T : Type} [DecidableEq K] [DecidableEq T] [Inhabited V]
    (prod : T → ρ → (V × Option E) × ρ) (s : Flights K V E ρ T) :
    List T → Option (Flights K V E ρ T)
  | [] => some s
  | t :: ts =>
    match s.step prod t with
    | none => none
    | some s' => s'.run prod ts

/-- The goroutine is before line 19 of `do`. -/
def PC.isStart : PC K V E → Bool
  | .start _ => true
  | _ => false

/-- The goroutine is about to remove its record from the registry (line 36). -/
def PC.isDeleting : PC K V E → Bool
  | .deleting _ _ => true
  | _ => false

/-- Every goroutine enters `do` while the first computation is in flight: whenever the
schedule removes a record from the registry (lines 36-38), no goroutine is still before
line 19. -/
def Flights.overlapped {ρ T : Type} [Fintype T] [DecidableEq K] [DecidableEq T]
    [Inhabited V] (prod : T → ρ → (V × Option E) × ρ) (s : Flights K V E ρ T) :
    List T → Bool
  | [] => true
  | t :: ts =>
    (!(s.pc t).isDeleting || decide (∀ u, (s.pc u).isStart = false)) &&
      match s.step prod t with
      | none => true
      | some s' => s'.overlapped prod ts

/-- The number of steps a goroutine has left in `do`, at most. -/
def PC.todo : PC K V E → Nat
  | .start _ => 5
  | .waiting _ => 1
  | .running _ _ => 4
  | .finishing _ _ => 3
  | .deleting _ _ => 2
  | .returning _ => 1
  | .done _ => 0

/-- The phases of one wave on key `k`: the record is at address `a`, the producers
start from the shared state `r0` with `c0` invocations made earlier. -/
def Wave {ρ T : Type} (prod : T → ρ → (V × Option E) × ρ) (k : K) (a : Nat) (r0 : ρ)
    (c0 : Nat) (s : Flights K V E ρ T) : Prop :=
  -- nobody has entered
  ((∀ t, s.pc t = .start k) ∧ s.records k = none ∧ s.next = a ∧ s.calls = c0 ∧
      s.shared = r0) ∨
  ∃ L : T,
    -- the leader is about to run its producer
    (s.pc L = .running k a ∧ (∀ t, t ≠ L → s.pc t = .start k ∨ s.pc t = .waiting a) ∧
      s.records k = some a ∧ (s.heap a).wg = 1 ∧ s.calls = c0 ∧ s.shared = r0) ∨
    -- the producer has run
    (s.pc L = .finishing k a ∧ (∀ t, t ≠ L → s.pc t = .start k ∨ s.pc t = .waiting a) ∧
      s.records k = some a ∧ s.heap a = ⟨1, (prod L r0).1.1, (prod L r0).1.2⟩ ∧
      s.calls = c0 + 1 ∧ s.shared = (prod L r0).2) ∨
    -- the record is complete and still registered
    (s.pc L = .deleting k a ∧
      (∀ t, t ≠ L → s.pc t = .start k ∨ s.pc t = .waiting a ∨ s.pc t = .done (prod L r0).1) ∧
      s.records k = some a ∧ s.heap a = ⟨0, (prod L r0).1.1, (prod L r0).1.2⟩ ∧
      s.calls = c0 + 1 ∧ s.shared = (prod L r0).2) ∨
    -- the record is removed, everybody had entered
    ((s.pc L = .returning a ∨ s.pc L = .done (prod L r0).1) ∧
      (∀ t, t ≠ L → s.pc t = .waiting a ∨ s.pc t = .done (prod L r0).1) ∧
      s.records k = none ∧ s.heap a = ⟨0, (prod L r0).1.1, (prod L r0).1.2⟩ ∧
      s.calls = c0 + 1 ∧ s.shared = (prod L r0).2)

/-! ## Concrete states for the examples -/

/-- A wrapped function for the examples: it counts its invocations in the user state,
fails on key `0` and returns twice the key otherwise. -/
def exFn : Nat → Nat → (Nat × Option String) × Nat :=
  fun k n => if k = 0 then ((7, some "fail"), n + 1) else ((2 * k, none), n + 1)

/-- A world whose clock reads 100, 110, 120, ... -/
def exWorld : World Nat Nat :=
  { user := 0, clock := fun i => 100 + 10 * i, reads := 0, invoked := [] }

/-- A memo with a 15 ns lifetime holding an entry for key `1` that expires at 50, one
for key `2` that expires at 130 and one for key `0` that expires at 50. -/
def exMemo : Memo Nat Nat String Nat :=
  { fn := exFn
    cfg := ⟨15⟩
    cache := fun k =>
      if k = 1 then some ⟨5, ⟨50⟩⟩ else if k = 2 then some ⟨6, ⟨130⟩⟩
      else if k = 0 then some ⟨9, ⟨50⟩⟩ else none
    sf := ⟨none⟩ }

/-- A wrapped function as in the test "does not cache errors": it counts its invocations
in the user state, fails with value `0` on the first one and returns `1` afterwards. -/
def exFlaky : Nat → Nat → (Nat × Option String) × Nat :=
  fun _ n => if n = 0 then ((0, some "fail"), n + 1) else ((1, none), n + 1)

/-- Three goroutines about to call `do` for key `7` on a fresh coalescer. -/
def exFlights : Flights Nat Nat String Nat (Fin 3) :=
  { m := none, heap := fun _ => ⟨0, 0, none⟩, next := 0, pc := fun _ => .start 7,
    shared := 0, calls := 0 }

/-- The producer of goroutine `t` counts its runs in the shared state and returns
`10 + t`. -/
def exProd : Fin 3 → Nat → (Nat × Option String) × Nat :=
  fun t n => ((10 + t.val, none), n + 1)

/-- Goroutine `0` leads, `1` joins before the producer runs, `2` joins after
`wg.Done()`, and the record is removed once everybody has entered. -/
def exSched : List (Fin 3) := [0, 1, 0, 0, 2, 1, 0, 0, 2]

/-- The state the example schedule ends in. -/
def exLanded : Flights Nat Nat String Nat (Fin 3) :=
  (exFlights.run exProd exSched).getD exFlights

/-- Three goroutines that found no valid entry for key `1` in `exMemo` and are about to
call `do` with the closure of `Get`. -/
def exGetFlights :
    Flights Nat Nat String ((Nat → Option (entry Nat)) × World Nat Nat) (Fin 3) :=
  { m := none, heap := fun _ => ⟨0, 0, none⟩, next := 0, pc := fun _ => .start 1,
    shared := (exMemo.cache, exWorld), calls := 0 }

/-- The state the example schedule ends in for the callers of `Get`. -/
def exGetLanded :
    Flights Nat Nat String ((Nat → Option (entry Nat)) × World Nat Nat) (Fin 3) :=
  (exGetFlights.run (fun _ => exMemo.compute 1) exSched).getD exGetFlights

/-- A wrapped function that always succeeds: it counts its invocations in the user state
and returns twice the key. -/
def exDouble : Nat → Nat → (Nat × Option String) × Nat :=
  fun k n => ((2 * k, none), n + 1)

/-! ## Basic facts about the embedding -/

theorem expired_world (e : entry V) (w : World K σ) :
    (e.expired w).2.user = w.user ∧ (e.expired w).2.invoked = w.invoked ∧
    (e.expired w).2.clock = w.clock ∧ w.reads ≤ (e.expired w).2.reads := by
  unfold entry.expired World.timeNow
  split <;> simp

theorem expired_eq_true_iff (e : entry V) (w : World K σ) :
    (e.expired w).1 = true ↔ e.expiresAt.ns ≠ 0 ∧ e.expiresAt.ns < (w.clock w.reads : Int) := by
  unfold entry.expired World.timeNow Time.IsZero Time.After
  by_cases h : e.expiresAt.ns = 0 <;> simp [h]

theorem expired_reads (e : entry V) (w : World K σ) :
    (e.expired w).2.reads = if e.expiresAt.ns = 0 then w.reads else w.reads + 1 := by
  unfold entry.expired World.timeNow Time.IsZero
  by_cases h : e.expiresAt.ns = 0 <;> simp [h]

theorem cached_world (cache : K → Option (entry V)) (key : K) (w : World K σ) :
    (cached cache key w).2.user = w.user ∧ (cached cache key w).2.invoked = w.invoked ∧
    (cached cache key w).2.clock = w.clock ∧ w.reads ≤ (cached cache key w).2.reads := by
  unfold cached
  split
  · simp
  · split <;> exact expired_world _ _

theorem cached_of_valid (cache : K → Option (entry V)) (key : K) (w : World K σ)
    (e : entry V) (h : cache key = some e) (hv : (e.expired w).1 = false) :
    cached cache key w = (some e.val, (e.expired w).2) := by
  simp [cached, h, hv]

theorem cached_of_stale (cache : K → Option (entry V)) (key : K) (w : World K σ)
    (h : stale cache key w) : (cached cache key w).1 = none := by
  rcases h with h | ⟨e, h, hx⟩ <;> simp [cached, h, *]

theorem cached_eq_none_iff (cache : K → Option (entry V)) (key : K) (w : World K σ) :
    (cached cache key w).1 = none ↔ stale cache key w := by
  refine ⟨fun h => ?_, cached_of_stale cache key w⟩
  unfold cached at h
  unfold stale
  cases hc : cache key with
  | none => exact Or.inl rfl
  | some e =>
    right
    refine ⟨e, rfl, ?_⟩
    rw [hc] at h
    by_cases hx : (e.expired w).1 = true
    · exact hx
    · simp [hx] at h

/-- On a clock that never runs backwards an entry found expired stays expired. -/
theorem stale_later (cache : K → Option (entry V)) (key : K) (w w2 : World K σ)
    (h : stale cache key w) (hmono : Monotone w.clock) (hc : w2.clock = w.clock)
    (hr : w.reads ≤ w2.reads) : stale cache key w2 := by
  rcases h with h | ⟨e, h, hx⟩
  · exact Or.inl h
  · refine Or.inr ⟨e, h, ?_⟩
    rw [expired_eq_true_iff] at hx ⊢
    refine ⟨hx.1, lt_of_lt_of_le hx.2 ?_⟩
    rw [hc]
    exact_mod_cast hmono hr

/-- With no record for `key` in the registry, `do` runs the producer once, returns what
it returned, and leaves the registry as it was (nil replaced by empty). -/
theorem Do_of_idle {ρ : Type} [DecidableEq K] [Inhabited V] (sf : singleflight K V E)
    (key : K) (fn : ρ → (V × Option E) × ρ) (r : ρ) (h : sf.records key = none) :
    sf.Do key fn r = some ((fn r).1, ⟨some sf.records⟩, (fn r).2) := by
  have hreg : Function.update sf.records key none = sf.records := by
    rw [← h]; exact Function.update_eq_self key sf.records
  simp [singleflight.Do, h, hreg]

theorem cached_stale_world (cache : K → Option (entry V)) (key : K) (w : World K σ)
    (h : stale cache key w) :
    (cached cache key w).2 =
      { w with reads := if (cache key).isSome then w.reads + 1 else w.reads } := by
  rcases h with h | ⟨e, h, hx⟩
  · simp [cached, h]
  · have hz : e.expiresAt.IsZero = false := by
      have := ((expired_eq_true_iff e w).1 hx).1
      simpa [Time.IsZero] using this
    simp [cached, h, hx]
    simp [entry.expired, hz, World.timeNow]

/-- The closure on a key with no valid entry, when the wrapped function fails. -/
theorem compute_fail [DecidableEq K] (m : Memo K V E σ) (key : K)
    (cache : K → Option (entry V)) (w : World K σ) (err : E)
    (hst : stale cache key w) (hfn : (m.fn key w.user).1.2 = some err) :
    m.compute key (cache, w) =
      (((m.fn key w.user).1.1, some err),
        (cache, { user := (m.fn key w.user).2, clock := w.clock,
                  reads := if (cache key).isSome then w.reads + 1 else w.reads,
                  invoked := w.invoked ++ [key] })) := by
  have h1 := cached_of_stale cache key w hst
  have h2 := cached_stale_world cache key w hst
  simp [Memo.compute, h1, h2, hfn]

/-- The closure on a key with no valid entry, when the wrapped function succeeds. -/
theorem compute_ok [DecidableEq K] (m : Memo K V E σ) (key : K)
    (cache : K → Option (entry V)) (w : World K σ)
    (hst : stale cache key w) (hfn : (m.fn key w.user).1.2 = none) :
    m.compute key (cache, w) =
      (((m.fn key w.user).1.1, none),
        (Function.update cache key (some
            { val := (m.fn key w.user).1.1
              expiresAt := if m.cfg.ttl > 0 then
                ⟨(w.clock (if (cache key).isSome then w.reads + 1 else w.reads) : Int) + m.cfg.ttl⟩
                else Time.zero }),
          { user := (m.fn key w.user).2, clock := w.clock,
            reads := (if (cache key).isSome then w.reads + 1 else w.reads) +
              (if m.cfg.ttl > 0 then 1 else 0),
            invoked := w.invoked ++ [key] })) := by
  have h1 := cached_of_stale cache key w hst
  have h2 := cached_stale_world cache key w hst
  by_cases ht : m.cfg.ttl > 0
  · simp [Memo.compute, h1, h2, hfn, ht, World.timeNow, Time.Add]
  · simp [Memo.compute, h1, h2, hfn, ht]

/-- A `Get` on a key with no valid entry and no record in the registry is the closure. -/
theorem Get_of_stale [DecidableEq K] [Inhabited V] (m : Memo K V E σ) (key : K)
    (w : World K σ) (hidle : m.sf.records key = none) (hst : stale m.cache key w) :
    m.Get key w =
      some ((m.compute key (m.cache, (cached m.cache key w).2)).1,
        { m with cache := (m.compute key (m.cache, (cached m.cache key w).2)).2.1,
                 sf := ⟨some m.sf.records⟩ },
        (m.compute key (m.cache, (cached m.cache key w).2)).2.2) := by
  have h1 := cached_of_stale m.cache key w hst
  simp [Memo.Get, h1, Do_of_idle _ _ _ _ hidle]

theorem Get_of_valid [DecidableEq K] [Inhabited V] (m : Memo K V E σ) (key : K)
    (w : World K σ) (e : entry V) (h : m.cache key = some e)
    (hv : (e.expired w).1 = false) :
    m.Get key w = some ((e.val, none), m, (e.expired w).2) := by
  simp [Memo.Get, cached_of_valid m.cache key w e h hv]

theorem exWorld_mono : Monotone exWorld.clock := by
  intro a b h
  simp only [exWorld]
  omega

/-- A `Get` on a key with no valid entry, no record in the registry and a clock that does
not run backwards, when the wrapped function fails. -/
theorem Get_miss_fail [DecidableEq K] [Inhabited V] (m : Memo K V E σ) (key : K)
    (w : World K σ) (err : E) (hidle : m.sf.records key = none)
    (hst : stale m.cache key w) (hmono : Monotone w.clock)
    (hfn : (m.fn key w.user).1.2 = some err) :
    m.Get key w =
      some (((m.fn key w.user).1.1, some err), { m with sf := ⟨some m.sf.records⟩ },
        { user := (m.fn key w.user).2, clock := w.clock,
          reads := if (m.cache key).isSome then w.reads + 2 else w.reads,
          invoked := w.invoked ++ [key] }) := by
  have hw := cached_stale_world m.cache key w hst
  have hst2 : stale m.cache key (cached m.cache key w).2 :=
    stale_later m.cache key w _ hst hmono (cached_world _ _ _).2.2.1 (cached_world _ _ _).2.2.2
  rw [Get_of_stale m key w hidle hst, compute_fail m key m.cache _ err hst2 (by rw [hw]; exact hfn)]
  rw [hw]
  cases hc : m.cache key <;> simp

/-- A `Get` on a key with no valid entry, no record in the registry and a clock that does
not run backwards, when the wrapped function succeeds. -/
theorem Get_miss_ok [DecidableEq K] [Inhabited V] (m : Memo K V E σ) (key : K)
    (w : World K σ) (hidle : m.sf.records key = none)
    (hst : stale m.cache key w) (hmono : Monotone w.clock)
    (hfn : (m.fn key w.user).1.2 = none) :
    m.Get key w =
      some (((m.fn key w.user).1.1, none),
        { m with
          cache := Function.update m.cache key (some
            { val := (m.fn key w.user).1.1
              expiresAt := if m.cfg.ttl > 0 then
                ⟨(w.clock (if (m.cache key).isSome then w.reads + 2 else w.reads) : Int)
                  + m.cfg.ttl⟩
                else Time.zero })
          sf := ⟨some m.sf.records⟩ },
        { user := (m.fn key w.user).2, clock := w.clock,
          reads := (if (m.cache key).isSome then w.reads + 2 else w.reads) +
            (if m.cfg.ttl > 0 then 1 else 0),
          invoked := w.invoked ++ [key] }) := by
  have hw := cached_stale_world m.cache key w hst
  have hst2 : stale m.cache key (cached m.cache key w).2 :=
    stale_later m.cache key w _ hst hmono (cached_world _ _ _).2.2.1 (cached_world _ _ _).2.2.2
  rw [Get_of_stale m key w hidle hst, compute_ok m key m.cache _ hst2 (by rw [hw]; exact hfn)]
  rw [hw]
  cases hc : m.cache key <;> simp

/-- A `Get` on a key with no valid entry, no record in the registry and a clock that does
not run backwards: the wrapped function is invoked once, on the user state of the call,
and its results are returned. -/
theorem Get_miss [DecidableEq K] [Inhabited V] (m : Memo K V E σ) (key : K)
    (w : World K σ) (hidle : m.sf.records key = none)
    (hst : stale m.cache key w) (hmono : Monotone w.clock) :
    ∃ m' w', m.Get key w = some ((m.fn key w.user).1, m', w') ∧
      w'.invoked = w.invoked ++ [key] ∧ w'.user = (m.fn key w.user).2 ∧
      w'.clock = w.clock ∧ w.reads ≤ w'.reads ∧
      m'.fn = m.fn ∧ m'.cfg = m.cfg ∧ m'.sf.records = m.sf.records ∧
      ∀ k, k ≠ key → m'.cache k = m.cache k := by
  cases hfn : (m.fn key w.user).1.2 with
  | some err =>
    have hget := Get_miss_fail m key w err hidle hst hmono hfn
    rw [← hfn] at hget
    refine ⟨_, _, hget, rfl, rfl, rfl, ?_, rfl, rfl, rfl, fun _ _ => rfl⟩
    dsimp only
    split <;> omega
  | none =>
    have hget := Get_miss_ok m key w hidle hst hmono hfn
    rw [← hfn] at hget
    refine ⟨_, _, hget, rfl, rfl, rfl, ?_, rfl, rfl, rfl, fun k hk => ?_⟩
    · dsimp only
      split <;> omega
    · exact Function.update_noteq hk _ _

theorem cached_eq_some (cache : K → Option (entry V)) (key : K) (w : World K σ) (v : V)
    (h : (cached cache key w).1 = some v) :
    ∃ e, cache key = some e ∧ (e.expired w).1 = false ∧ e.val = v := by
  unfold cached at h
  cases hc : cache key with
  | none => simp [hc] at h
  | some e =>
    rw [hc] at h
    by_cases hx : (e.expired w).1 = true
    · simp [hx] at h
    · simp only [Bool.not_eq_true] at hx
      simp [hx] at h
      exact ⟨e, rfl, hx, h⟩

/-- The closure on a key with a valid entry returns the entry's value and stores
nothing. -/
theorem compute_hit [DecidableEq K] (m : Memo K V E σ) (key : K)
    (cache : K → Option (entry V)) (w : World K σ) (e : entry V)
    (h : cache key = some e) (hv : (e.expired w).1 = false) :
    m.compute key (cache, w) = ((e.val, none), (cache, (e.expired w).2)) := by
  simp [Memo.compute, cached_of_valid cache key w e h hv]

/-- What one run of the closure does, whatever the clock: either it finds a valid entry,
or it invokes the wrapped function once and stores the value of a success. -/
theorem compute_cases [DecidableEq K] (m : Memo K V E σ) (key : K)
    (cache : K → Option (entry V)) (w : World K σ) :
    (∃ e, cache key = some e ∧ (e.expired w).1 = false ∧
      m.compute key (cache, w) = ((e.val, none), (cache, (e.expired w).2))) ∨
    (stale cache key w ∧ ∃ w', m.compute key (cache, w) =
        ((m.fn key w.user).1,
          (match (m.fn key w.user).1.2 with
            | some _ => cache
            | none => Function.update cache key (some
                { val := (m.fn key w.user).1.1
                  expiresAt := if m.cfg.ttl > 0 then
                    ⟨(w.clock (if (cache key).isSome then w.reads + 1 else w.reads) : Int)
                      + m.cfg.ttl⟩
                    else Time.zero }), w')) ∧
        w'.user = (m.fn key w.user).2 ∧ w'.invoked = w.invoked ++ [key] ∧
        w'.clock = w.clock ∧ w.reads ≤ w'.reads) := by
  cases hc : (cached cache key w).1 with
  | some v =>
    obtain ⟨e, he, hv, -⟩ := cached_eq_some cache key w v hc
    exact Or.inl ⟨e, he, hv, compute_hit m key cache w e he hv⟩
  | none =>
    have hst := (cached_eq_none_iff cache key w).1 hc
    refine Or.inr ⟨hst, ?_⟩
    cases hfn : (m.fn key w.user).1.2 with
    | some err =>
      refine ⟨{ user := (m.fn key w.user).2, clock := w.clock,
                reads := if (cache key).isSome then w.reads + 1 else w.reads,
                invoked := w.invoked ++ [key] }, ?_, rfl, rfl, rfl, ?_⟩
      · rw [compute_fail m key cache w err hst hfn]
        simp [Prod.ext_iff, hfn]
      · dsimp only
        split <;> omega
    | none =>
      refine ⟨{ user := (m.fn key w.user).2, clock := w.clock,
                reads := (if (cache key).isSome then w.reads + 1 else w.reads) +
                  (if m.cfg.ttl > 0 then 1 else 0),
                invoked := w.invoked ++ [key] }, ?_, rfl, rfl, rfl, ?_⟩
      · rw [compute_ok m key cache w hst hfn]
        simp [Prod.ext_iff, hfn]
      · dsimp only
        split <;> split <;> omega

/-- What `Get` does when the registry holds no record for the key, whatever the clock: it
returns, and either it serves a valid entry, invoking nothing and storing nothing, or it
invokes the wrapped function once on a key with no valid entry, returns what that
returned and stores the value of a success. -/
theorem Get_cases [DecidableEq K] [Inhabited V] (m : Memo K V E σ) (key : K)
    (w : World K σ) (hidle : m.sf.records key = none) :
    ∃ out m' w', m.Get key w = some (out, m', w') ∧
      m'.fn = m.fn ∧ m'.cfg = m.cfg ∧ m'.sf.records = m.sf.records ∧
      w'.clock = w.clock ∧ w.reads ≤ w'.reads ∧
      ((∃ e, m.cache key = some e ∧ out = (e.val, none) ∧ m'.cache = m.cache ∧
          w'.invoked = w.invoked ∧ w'.user = w.user ∧
          ∃ w1 : World K σ, w1.clock = w.clock ∧ w.reads ≤ w1.reads ∧
            (e.expired w1).1 = false) ∨
        (stale m.cache key w ∧ out = (m.fn key w.user).1 ∧
          w'.invoked = w.invoked ++ [key] ∧ w'.user = (m.fn key w.user).2 ∧
          (∀ err, out.2 = some err → m'.cache = m.cache) ∧
          (out.2 = none → ∃ i, w.reads ≤ i ∧
            m'.cache = Function.update m.cache key (some
              { val := out.1
                expiresAt := if m.cfg.ttl > 0 then ⟨(w.clock i : Int) + m.cfg.ttl⟩
                  else Time.zero })))) := by
  cases hc : (cached m.cache key w).1 with
  | some v =>
    obtain ⟨e, he, hv, hval⟩ := cached_eq_some m.cache key w v hc
    refine ⟨_, _, _, Get_of_valid m key w e he hv, rfl, rfl, rfl,
      (expired_world e w).2.2.1, (expired_world e w).2.2.2, Or.inl ⟨e, he, rfl, rfl,
        (expired_world e w).2.1, (expired_world e w).1, w, rfl, le_refl _, hv⟩⟩
  | none =>
    have hst := (cached_eq_none_iff m.cache key w).1 hc
    have hget := Get_of_stale m key w hidle hst
    have hw := cached_world m.cache key w
    rcases compute_cases m key m.cache (cached m.cache key w).2 with
      ⟨e, he, hv, hcomp⟩ | ⟨-, w', hcomp, hu, hi, hcl, hr⟩
    · rw [hcomp] at hget
      refine ⟨_, _, _, hget, rfl, rfl, rfl, ?_, ?_, Or.inl ⟨e, he, rfl, rfl, ?_, ?_,
        _, hw.2.2.1, hw.2.2.2, hv⟩⟩
      · exact (expired_world e _).2.2.1.trans hw.2.2.1
      · exact le_trans hw.2.2.2 (expired_world e _).2.2.2
      · exact (expired_world e _).2.1.trans hw.2.1
      · exact (expired_world e _).1.trans hw.1
    · rw [hcomp] at hget
      rw [hw.1] at hget hu
      rw [hw.2.1] at hi
      refine ⟨_, _, _, hget, rfl, rfl, rfl, hcl.trans hw.2.2.1, le_trans hw.2.2.2 hr,
        Or.inr ⟨hst, rfl, hi, hu, ?_, ?_⟩⟩
      · intro err herr
        simp only at herr
        simp only [herr]
      · intro hok
        simp only at hok
        refine ⟨(if (m.cache key).isSome then (cached m.cache key w).2.reads + 1
          else (cached m.cache key w).2.reads), ?_, ?_⟩
        · split
          · exact le_trans hw.2.2.2 (Nat.le_succ _)
          · exact hw.2.2.2
        · simp only [hok, hw.2.2.1]

/-- A `Get` on a key whose entry is expired, with no record in the registry and a clock
that does not run backwards, invokes the wrapped function. -/
theorem Get_of_expired [DecidableEq K] [Inhabited V] (m : Memo K V E σ) (key : K)
    (w : World K σ) (e : entry V) (hidle : m.sf.records key = none)
    (he : m.cache key = some e) (hmono : Monotone w.clock)
    (hx : (e.expired w).1 = true) :
    ∃ out m' w', m.Get key w = some (out, m', w') ∧ w'.invoked = w.invoked ++ [key] := by
  obtain ⟨m', w', hg, hinv, -⟩ := Get_miss m key w hidle (Or.inr ⟨e, he, hx⟩) hmono
  exact ⟨_, m', w', hg, hinv⟩

/-- A `Get` with no record for the key in the registry leaves the entries of the other
keys alone. -/
theorem Get_frame [DecidableEq K] [Inhabited V] (m : Memo K V E σ) (key : K)
    (w : World K σ) (hidle : m.sf.records key = none) :
    ∃ out m' w', m.Get key w = some (out, m', w') ∧
      m'.fn = m.fn ∧ m'.cfg = m.cfg ∧ m'.sf.records = m.sf.records ∧
      ∀ k, k ≠ key → m'.cache k = m.cache k := by
  obtain ⟨out, m', w', hget, hfn, hcfg, hsf, -, -, hcase⟩ := Get_cases m key w hidle
  refine ⟨out, m', w', hget, hfn, hcfg, hsf, fun k hk => ?_⟩
  rcases hcase with ⟨e, -, -, hc, -⟩ | ⟨-, -, -, -, hfail, hok⟩
  · rw [hc]
  · cases herr : out.2 with
    | some err => rw [hfail err herr]
    | none =>
      obtain ⟨i, -, hc⟩ := hok herr
      rw [hc, Function.update_noteq hk]

theorem New_quiet (fn : K → σ → (V × Option E) × σ) (opts : List Opt) :
    (New fn opts).quiet := fun _ => rfl

/-- A property of memos that every call satisfying `Q` preserves on quiet memos holds
after a run of such calls from a quiet memo, and the run returns. -/
theorem run_preserves [DecidableEq K] [Inhabited V] (P : Memo K V E σ → Prop)
    (Q : Op K → Prop)
    (hstep : ∀ (m : Memo K V E σ) (op : Op K) (w : World K σ), Q op → m.quiet → P m →
      ∃ outs m' w', m.step op w = some (outs, m', w') ∧ m'.quiet ∧ P m')
    (ops : List (Op K)) :
    ∀ (m : Memo K V E σ) (w : World K σ), (∀ op ∈ ops, Q op) → m.quiet → P m →
      ∃ outs m' w', m.run ops w = some (outs, m', w') ∧ m'.quiet ∧ P m' := by
  induction ops with
  | nil => exact fun m w _ hq hp => ⟨[], m, w, rfl, hq, hp⟩
  | cons op ops ih =>
    intro m w hQ hq hp
    obtain ⟨outs, m1, w1, h1, hq1, hp1⟩ :=
      hstep m op w (hQ op (List.mem_cons_self _ _)) hq hp
    obtain ⟨outs', m2, w2, h2, hq2, hp2⟩ :=
      ih m1 w1 (fun o ho => hQ o (List.mem_cons_of_mem _ ho)) hq1 hp1
    exact ⟨outs ++ outs', m2, w2, by simp [Memo.run, h1, h2], hq2, hp2⟩

/-- An entry whose `expiresAt` is the zero time is never reported expired. -/
theorem expired_of_zero (e : entry V) (w : World K σ) (h : e.expiresAt = Time.zero) :
    e.expired w = (false, w) := by
  simp [entry.expired, h, Time.zero, Time.IsZero]

/-- With a non-positive `ttl`, every call keeps all stored `expiresAt` at the zero
time. -/
theorem step_no_expiry [DecidableEq K] [Inhabited V] (m : Memo K V E σ) (op : Op K)
    (w : World K σ) (hq : m.quiet)
    (hp : m.cfg.ttl ≤ 0 ∧ ∀ k e, m.cache k = some e → e.expiresAt = Time.zero) :
    ∃ outs m' w', m.step op w = some (outs, m', w') ∧ m'.quiet ∧
      (m'.cfg.ttl ≤ 0 ∧ ∀ k e, m'.cache k = some e → e.expiresAt = Time.zero) := by
  cases op with
  | get key =>
    obtain ⟨out, m', w', hget, -, hcfg, hsf, -, -, hcase⟩ := Get_cases m key w (hq key)
    refine ⟨[out], m', w', by simp [Memo.step, hget], fun k => by rw [hsf]; exact hq k,
      by rw [hcfg]; exact hp.1, fun k e he => ?_⟩
    rcases hcase with ⟨e', -, -, hc, -⟩ | ⟨-, -, -, -, hfail, hok⟩
    · rw [hc] at he
      exact hp.2 k e he
    · cases herr : out.2 with
      | some err =>
        rw [hfail err herr] at he
        exact hp.2 k e he
      | none =>
        obtain ⟨i, -, hc⟩ := hok herr
        rw [hc] at he
        by_cases hk : k = key
        · subst hk
          rw [Function.update_same] at he
          have hnot : ¬ m.cfg.ttl > 0 := not_lt.2 hp.1
          rw [← Option.some.inj he]
          simp only [hnot, if_false]
        · rw [Function.update_noteq hk] at he
          exact hp.2 k e he
  | forget key =>
    refine ⟨[], m.Forget key, w, rfl, hq, hp.1, fun k e he => ?_⟩
    by_cases hk : k = key
    · subst hk
      simp [Memo.Forget] at he
    · simp only [Memo.Forget, Function.update_noteq hk] at he
      exact hp.2 k e he
  | purge =>
    exact ⟨[], m.Purge, w, rfl, hq, hp.1, fun k e he => by simp [Memo.Purge] at he⟩

/-- A call that neither forgets `key` nor purges keeps an entry of `key` that never
expires. -/
theorem step_keeps [DecidableEq K] [Inhabited V] (key : K) (e : entry V)
    (hz : e.expiresAt = Time.zero) (m : Memo K V E σ) (op : Op K)
    (w : World K σ) (hop : op.keeps key = true) (hq : m.quiet)
    (hp : m.cache key = some e) :
    ∃ outs m' w', m.step op w = some (outs, m', w') ∧ m'.quiet ∧ m'.cache key = some e := by
  cases op with
  | get k =>
    by_cases hk : key = k
    · subst hk
      have hv : (e.expired w).1 = false := by rw [expired_of_zero e w hz]
      exact ⟨[(e.val, none)], m, (e.expired w).2,
        by simp [Memo.step, Get_of_valid m key w e hp hv], hq, hp⟩
    · obtain ⟨out, m', w', hget, -, -, hsf, hfr⟩ := Get_frame m k w (hq k)
      exact ⟨[out], m', w', by simp [Memo.step, hget], fun x => by rw [hsf]; exact hq x,
        by rw [hfr key hk]; exact hp⟩
  | forget k =>
    have hk : k ≠ key := by simpa [Op.keeps] using hop
    exact ⟨[], m.Forget k, w, rfl, hq, by
      simp only [Memo.Forget, Function.update_noteq (Ne.symm hk)]; exact hp⟩
  | purge => simp [Op.keeps] at hop

/-- A `Get` with no record for the key in the registry invokes the wrapped function at
most once, and after a nil error the store holds an entry with the returned value. -/
theorem Get_ok_entry [DecidableEq K] [Inhabited V] (m : Memo K V E σ) (key : K)
    (w : World K σ) (hidle : m.sf.records key = none) :
    ∃ out m1 w1, m.Get key w = some (out, m1, w1) ∧
      (w1.invoked = w.invoked ∨ w1.invoked = w.invoked ++ [key]) ∧
      (out.2 = none → ∃ e, m1.cache key = some e ∧ e.val = out.1) := by
  obtain ⟨out, m1, w1, hget, -, -, -, -, -, hcase⟩ := Get_cases m key w hidle
  refine ⟨out, m1, w1, hget, ?_, fun herr => ?_⟩
  · rcases hcase with ⟨e, -, -, -, hi, -⟩ | ⟨-, -, hi, -⟩
    · exact Or.inl hi
    · exact Or.inr hi
  · rcases hcase with ⟨e, he, hout, hc, -⟩ | ⟨-, -, -, -, -, hok⟩
    · exact ⟨e, by rw [hc, he], by rw [hout]⟩
    · obtain ⟨i, -, hc⟩ := hok herr
      exact ⟨_, by rw [hc, Function.update_same], rfl⟩

/-- A `Get` on a key with no entry at all, and no record in the registry, invokes the
wrapped function once and returns what it returned. -/
theorem Get_of_absent [DecidableEq K] [Inhabited V] (m : Memo K V E σ) (key : K)
    (w : World K σ) (hidle : m.sf.records key = none) (hc : m.cache key = none) :
    ∃ m' w', m.Get key w = some ((m.fn key w.user).1, m', w') ∧
      w'.invoked = w.invoked ++ [key] ∧ w'.user = (m.fn key w.user).2 := by
  obtain ⟨out, m', w', hget, -, -, -, -, -, hcase⟩ := Get_cases m key w hidle
  rcases hcase with ⟨e, he, -⟩ | ⟨-, hout, hi, hu, -⟩
  · rw [hc] at he
    exact absurd he (by simp)
  · rw [hout] at hget
    exact ⟨m', w', hget, hi, hu⟩

/-- A `Get` that returns leaves the entries of the other keys, the wrapped function and
the configuration alone, whatever the registry holds. -/
theorem Get_frame_any [DecidableEq K] [Inhabited V] (m : Memo K V E σ) (key : K)
    (w : World K σ) (out : V × Option E) (m' : Memo K V E σ) (w' : World K σ)
    (hget : m.Get key w = some (out, m', w')) :
    m'.fn = m.fn ∧ m'.cfg = m.cfg ∧ ∀ k, k ≠ key → m'.cache k = m.cache k := by
  cases hreg : m.sf.records key with
  | none =>
    obtain ⟨out1, m1, w1, hget1, hfn, hcfg, -, hfr⟩ := Get_frame m key w hreg
    rw [hget1] at hget
    simp only [Option.some.injEq, Prod.mk.injEq] at hget
    obtain ⟨-, hm, -⟩ := hget
    subst hm
    exact ⟨hfn, hcfg, hfr⟩
  | some c =>
    unfold Memo.Get at hget
    cases hc : (cached m.cache key w).1 with
    | some v =>
      simp only [hc, Option.some.injEq, Prod.mk.injEq] at hget
      obtain ⟨-, hm, -⟩ := hget
      subst hm
      exact ⟨rfl, rfl, fun _ _ => rfl⟩
    | none =>
      simp only [hc, singleflight.Do, hreg] at hget
      by_cases hwg : c.wg = 0
      · simp only [hwg, if_true, Option.some.injEq, Prod.mk.injEq] at hget
        obtain ⟨-, hm, -⟩ := hget
        subst hm
        exact ⟨rfl, rfl, fun _ _ => rfl⟩
      · simp [hwg] at hget

/-- A `Get` on a memo whose wrapped function returns `f k` on every invocation for `k`,
and whose entries hold such values, returns `f key` and keeps the entries so. -/
theorem Get_pure [DecidableEq K] [Inhabited V] (f : K → V × Option E)
    (m : Memo K V E σ) (key : K) (w : World K σ) (hq : m.quiet)
    (hpure : ∀ k u, (m.fn k u).1 = f k)
    (hinv : ∀ k e, m.cache k = some e → f k = (e.val, none)) :
    ∃ m' w', m.Get key w = some (f key, m', w') ∧ m'.quiet ∧ m'.fn = m.fn ∧
      ∀ k e, m'.cache k = some e → f k = (e.val, none) := by
  obtain ⟨out, m', w', hget, hfn, -, hsf, -, -, hcase⟩ := Get_cases m key w (hq key)
  have hq' : m'.quiet := fun k => by rw [hsf]; exact hq k
  rcases hcase with ⟨e, he, hout, hc, -⟩ | ⟨-, hout, -, -, hfail, hok⟩
  · rw [hout, ← hinv key e he] at hget
    exact ⟨m', w', hget, hq', hfn, fun k e' he' => hinv k e' (by rw [← hc]; exact he')⟩
  · rw [hpure] at hout
    rw [hout] at hget
    refine ⟨m', w', hget, hq', hfn, fun k e he => ?_⟩
    cases herr : out.2 with
    | some err =>
      rw [hfail err herr] at he
      exact hinv k e he
    | none =>
      obtain ⟨i, -, hc⟩ := hok herr
      rw [hc] at he
      by_cases hk : k = key
      · subst hk
        rw [Function.update_same] at he
        rw [← Option.some.inj he, ← hout]
        exact Prod.ext rfl herr
      · rw [Function.update_noteq hk] at he
        exact hinv k e he

/-- Over any calls, the `Get`s on such a memo return the values of `f` at the keys
asked. -/
theorem run_pure [DecidableEq K] [Inhabited V] (f : K → V × Option E)
    (ops : List (Op K)) :
    ∀ (m : Memo K V E σ) (w : World K σ), m.quiet → (∀ k u, (m.fn k u).1 = f k) →
      (∀ k e, m.cache k = some e → f k = (e.val, none)) →
      ∃ m' w', m.run ops w = some ((asked ops).map f, m', w') := by
  induction ops with
  | nil => exact fun m w _ _ _ => ⟨m, w, rfl⟩
  | cons op ops ih =>
    intro m w hq hpure hinv
    cases op with
    | get key =>
      obtain ⟨m1, w1, hget, hq1, hfn1, hinv1⟩ := Get_pure f m key w hq hpure hinv
      obtain ⟨m2, w2, hrun⟩ := ih m1 w1 hq1 (by rw [hfn1]; exact hpure) hinv1
      exact ⟨m2, w2, by simp [Memo.run, Memo.step, hget, hrun, asked]⟩
    | forget key =>
      obtain ⟨m2, w2, hrun⟩ := ih (m.Forget key) w hq hpure (fun k e he => by
        by_cases hk : k = key
        · subst hk
          simp [Memo.Forget] at he
        · simp only [Memo.Forget, Function.update_noteq hk] at he
          exact hinv k e he)
      exact ⟨m2, w2, by simp [Memo.run, Memo.step, hrun, asked]⟩
    | purge =>
      obtain ⟨m2, w2, hrun⟩ := ih m.Purge w hq hpure (fun k e he => by
        simp [Memo.Purge] at he)
      exact ⟨m2, w2, by simp [Memo.run, Memo.step, hrun, asked]⟩

/-- Every call preserves the invariant of the store over a run that started with the
invocation log `base`: the log has grown by `L`, and every entry was stored for a key
invoked in `L`, holds a value an invocation for its key can return with a nil error, and
has the zero `expiresAt` exactly when the configured `ttl` is not positive. -/
theorem step_store [DecidableEq K] [Inhabited V] (base : List K) (m : Memo K V E σ)
    (op : Op K) (w : World K σ) (hq : m.quiet)
    (hinv : ∃ L, w.invoked = base ++ L ∧ ∀ k e, m.cache k = some e →
      k ∈ L ∧ (∃ u, (m.fn k u).1 = (e.val, none)) ∧
      (e.expiresAt = Time.zero ↔ m.cfg.ttl ≤ 0)) :
    ∃ outs m' w', m.step op w = some (outs, m', w') ∧ m'.quiet ∧ m'.fn = m.fn ∧
      m'.cfg = m.cfg ∧
      ∃ L, w'.invoked = base ++ L ∧ ∀ k e, m'.cache k = some e →
        k ∈ L ∧ (∃ u, (m.fn k u).1 = (e.val, none)) ∧
        (e.expiresAt = Time.zero ↔ m.cfg.ttl ≤ 0) := by
  obtain ⟨L, hL, hent⟩ := hinv
  cases op with
  | get key =>
    obtain ⟨out, m', w', hget, hfn, hcfg, hsf, -, -, hcase⟩ := Get_cases m key w (hq key)
    refine ⟨[out], m', w', by simp [Memo.step, hget], fun k => by rw [hsf]; exact hq k,
      hfn, hcfg, ?_⟩
    rcases hcase with ⟨e, -, -, hc, hi, -⟩ | ⟨-, hout, hi, -, hfail, hok⟩
    · exact ⟨L, by rw [hi, hL], fun k e he => hent k e (by rw [← hc]; exact he)⟩
    · refine ⟨L ++ [key], by rw [hi, hL, List.append_assoc], fun k e he => ?_⟩
      have hold : ∀ k e, m.cache k = some e →
          k ∈ L ++ [key] ∧ (∃ u, (m.fn k u).1 = (e.val, none)) ∧
          (e.expiresAt = Time.zero ↔ m.cfg.ttl ≤ 0) := fun k e he =>
        ⟨List.mem_append_left _ (hent k e he).1, (hent k e he).2⟩
      cases herr : out.2 with
      | some err =>
        rw [hfail err herr] at he
        exact hold k e he
      | none =>
        obtain ⟨i, -, hc⟩ := hok herr
        rw [hc] at he
        by_cases hk : k = key
        · subst hk
          rw [Function.update_same] at he
          have he' := Option.some.inj he
          subst he'
          refine ⟨by simp, ⟨w.user, ?_⟩, ?_⟩
          · rw [← hout]
            exact Prod.ext rfl herr
          · by_cases ht : m.cfg.ttl > 0
            · have ht' : (0 : Int) < m.cfg.ttl := ht
              simp only [ht, if_true]
              constructor
              · intro h
                have hns : (w.clock i : Int) + m.cfg.ttl = 0 := congrArg Time.ns h
                omega
              · intro h
                exact absurd h (not_le.2 ht)
            · simp only [ht, if_false, true_iff]
              exact not_lt.1 ht
        · rw [Function.update_noteq hk] at he
          exact hold k e he
  | forget key =>
    refine ⟨[], m.Forget key, w, rfl, hq, rfl, rfl, L, hL, fun k e he => ?_⟩
    by_cases hk : k = key
    · subst hk
      simp [Memo.Forget] at he
    · simp only [Memo.Forget, Function.update_noteq hk] at he
      exact hent k e he
  | purge =>
    exact ⟨[], m.Purge, w, rfl, hq, rfl, rfl, L, hL, fun k e he => by
      simp [Memo.Purge] at he⟩

/-- The invariant of the store holds after every run from a quiet memo on which it
holds, and the run returns. -/
theorem run_store [DecidableEq K] [Inhabited V] (fn : K → σ → (V × Option E) × σ)
    (cfg : config) (base : List K) (ops : List (Op K)) :
    ∀ (m : Memo K V E σ) (w : World K σ), m.quiet → m.fn = fn → m.cfg = cfg →
      (∃ L, w.invoked = base ++ L ∧ ∀ k e, m.cache k = some e →
        k ∈ L ∧ (∃ u, (fn k u).1 = (e.val, none)) ∧
        (e.expiresAt = Time.zero ↔ cfg.ttl ≤ 0)) →
      ∃ outs m' w', m.run ops w = some (outs, m', w') ∧
        ∃ L, w'.invoked = base ++ L ∧ ∀ k e, m'.cache k = some e →
          k ∈ L ∧ (∃ u, (fn k u).1 = (e.val, none)) ∧
          (e.expiresAt = Time.zero ↔ cfg.ttl ≤ 0) := by
  induction ops with
  | nil => exact fun m w _ _ _ hinv => ⟨[], m, w, rfl, hinv⟩
  | cons op ops ih =>
    intro m w hq hfn hcfg hinv
    subst hfn hcfg
    obtain ⟨outs, m1, w1, h1, hq1, hfn1, hcfg1, hinv1⟩ := step_store base m op w hq hinv
    obtain ⟨outs', m2, w2, h2, hinv2⟩ := ih m1 w1 hq1 hfn1 hcfg1 hinv1
    exact ⟨outs ++ outs', m2, w2, by simp [Memo.run, h1, h2], hinv2⟩

/-- The `Get`s on the keys of a list, made one after the other on a quiet memo whose
entries never expire and whose wrapped function always succeeds: they return, the
wrapped function is invoked once for each distinct key that had no entry, in the order
of first appearance, every result carries a nil error, and the store gains exactly the
keys of the list. -/
theorem run_gets [DecidableEq K] [Inhabited V] (keys : List K) :
    ∀ (m : Memo K V E σ) (w : World K σ), m.quiet →
      (∀ k e, m.cache k = some e → e.expiresAt = Time.zero) → m.cfg.ttl ≤ 0 →
      (∀ k u, (m.fn k u).1.2 = none) →
      ∃ outs m' w' L, m.run (keys.map Op.get) w = some (outs, m', w') ∧
        w'.invoked = w.invoked ++ L ∧ L.Nodup ∧
        (∀ k, k ∈ L ↔ k ∈ keys ∧ m.cache k = none) ∧
        (∀ k, (m'.cache k).isSome = true ↔ (m.cache k).isSome = true ∨ k ∈ keys) ∧
        (∀ val : K → V, (∀ k u, (m.fn k u).1.1 = val k) →
          (∀ k e, m.cache k = some e → e.val = val k) →
          outs = keys.map fun k => (val k, none)) := by
  induction keys with
  | nil =>
    intro m w _ _ _ _
    exact ⟨[], m, w, [], rfl, by simp, List.nodup_nil, by simp, by simp, fun _ _ _ => rfl⟩
  | cons key keys ih =>
    intro m w hq hz httl hsucc
    obtain ⟨out, m1, w1, hget, hfn, hcfg, hsf, -, -, hcase⟩ := Get_cases m key w (hq key)
    have hq1 : m1.quiet := fun k => by rw [hsf]; exact hq k
    have hsucc1 : ∀ k u, (m1.fn k u).1.2 = none := by rw [hfn]; exact hsucc
    have hnot : ¬ m.cfg.ttl > 0 := not_lt.2 httl
    rcases hcase with ⟨e, he, hout, hc, hi, -⟩ | ⟨hst, hout, hi, -, -, hok⟩
    · -- the key has an entry: it is served from the store
      have hz1 : ∀ k e, m1.cache k = some e → e.expiresAt = Time.zero := by
        rw [hc]; exact hz
      obtain ⟨outs, m2, w2, L, hrun, hinv, hnd, hmem, hkeys, hval⟩ :=
        ih m1 w1 hq1 hz1 (by rw [hcfg]; exact httl) hsucc1
      refine ⟨out :: outs, m2, w2, L, by simp [Memo.run, Memo.step, hget, hrun],
        by rw [hinv, hi], hnd, fun k => ?_, fun k => ?_, fun val hv hcv => ?_⟩
      · rw [hmem k, hc]
        constructor
        · rintro ⟨h1, h2⟩
          exact ⟨List.mem_cons_of_mem _ h1, h2⟩
        · rintro ⟨h1, h2⟩
          rcases List.mem_cons.1 h1 with h | h
          · rw [h, he] at h2
            exact absurd h2 (by simp)
          · exact ⟨h, h2⟩
      · rw [hkeys k, hc]
        constructor
        · rintro (h | h)
          · exact Or.inl h
          · exact Or.inr (List.mem_cons_of_mem _ h)
        · rintro (h | h)
          · exact Or.inl h
          · rcases List.mem_cons.1 h with h | h
            · exact Or.inl (by rw [h, he]; rfl)
            · exact Or.inr h
      · rw [hval val (by rw [hfn]; exact hv) (by rw [hc]; exact hcv), hout, hcv key e he]
        rfl
    · -- the key has no entry: the wrapped function is invoked and its value stored
      have hnone : m.cache key = none := by
        rcases hst with h | ⟨e, h, hx⟩
        · exact h
        · rw [expired_of_zero e w (hz key e h)] at hx
          exact absurd hx (by simp)
      have herr : out.2 = none := by rw [hout]; exact hsucc key w.user
      obtain ⟨i, -, hc⟩ := hok herr
      simp only [hnot, if_false] at hc
      have hz1 : ∀ k e, m1.cache k = some e → e.expiresAt = Time.zero := by
        intro k e he
        rw [hc] at he
        by_cases hk : k = key
        · subst hk
          rw [Function.update_same] at he
          rw [← Option.some.inj he]
        · rw [Function.update_noteq hk] at he
          exact hz k e he
      obtain ⟨outs, m2, w2, L, hrun, hinv, hnd, hmem, hkeys, hval⟩ :=
        ih m1 w1 hq1 hz1 (by rw [hcfg]; exact httl) hsucc1
      have hkey1 : m1.cache key ≠ none := by rw [hc, Function.update_same]; simp
      have hother : ∀ k, k ≠ key → m1.cache k = m.cache k := fun k hk => by
        rw [hc, Function.update_noteq hk]
      refine ⟨out :: outs, m2, w2, key :: L, by simp [Memo.run, Memo.step, hget, hrun],
        by rw [hinv, hi]; simp, List.nodup_cons.2 ⟨fun h => hkey1 ((hmem key).1 h).2, hnd⟩,
        fun k => ?_, fun k => ?_, fun val hv hcv => ?_⟩
      · rw [List.mem_cons, hmem k]
        by_cases hk : k = key
        · subst hk
          simp [hnone]
        · rw [hother k hk]
          simp [hk]
      · rw [hkeys k]
        by_cases hk : k = key
        · subst hk
          simp [hc]
        · rw [hother k hk]
          simp [hk]
      · have hcv1 : ∀ k e, m1.cache k = some e → e.val = val k := by
          intro k e he
          rw [hc] at he
          by_cases hk : k = key
          · subst hk
            rw [Function.update_same] at he
            rw [← Option.some.inj he, hout]
            exact hv k w.user
          · rw [Function.update_noteq hk] at he
            exact hcv k e he
        rw [hval val (by rw [hfn]; exact hv) hcv1]
        simp only [List.map_cons, List.cons.injEq, and_true]
        rw [hout]
        exact Prod.ext (hv key w.user) (hsucc key w.user)

/-- Calling the bound `Get` on each key of a list is running the `Get`s of the list. -/
theorem callEach_Get [DecidableEq K] [Inhabited V] (keys : List K) :
    ∀ (m : Memo K V E σ) (w : World K σ),
      callEach (fun m => m.Get) m keys w = m.run (keys.map Op.get) w := by
  induction keys with
  | nil => exact fun _ _ => rfl
  | cons key keys ih =>
    intro m w
    simp only [callEach, List.map_cons, Memo.run, Memo.step]
    cases hget : m.Get key w with
    | none => rfl
    | some r =>
      obtain ⟨out, m', w'⟩ := r
      simp only [ih m' w']
      cases m'.run (keys.map Op.get) w' with
      | none => rfl
      | some r' => rfl

/-- Two calls in a row. -/
theorem callEach_two [DecidableEq K] [Inhabited V]
    (f : Memo K V E σ → K → World K σ → Option ((V × Option E) × Memo K V E σ × World K σ))
    {m m1 m2 : Memo K V E σ} {w w1 w2 : World K σ} {k1 k2 : K} {o1 o2 : V × Option E}
    (h1 : f m k1 w = some (o1, m1, w1)) (h2 : f m1 k2 w1 = some (o2, m2, w2)) :
    callEach f m [k1, k2] w = some ([o1, o2], m2, w2) := by
  simp only [callEach, h1, h2]

/-- A `Get` on a key with no entry at all, no record in the registry and a wrapped
function that succeeds: the exact state it leaves. -/
theorem Get_absent_ok [DecidableEq K] [Inhabited V] (m : Memo K V E σ) (key : K)
    (w : World K σ) (hidle : m.sf.records key = none) (hc : m.cache key = none)
    (hfn : (m.fn key w.user).1.2 = none) :
    m.Get key w =
      some (((m.fn key w.user).1.1, none),
        { m with
          cache := Function.update m.cache key (some
            { val := (m.fn key w.user).1.1
              expiresAt := if m.cfg.ttl > 0 then ⟨(w.clock w.reads : Int) + m.cfg.ttl⟩
                else Time.zero })
          sf := ⟨some m.sf.records⟩ },
        { user := (m.fn key w.user).2, clock := w.clock,
          reads := w.reads + (if m.cfg.ttl > 0 then 1 else 0),
          invoked := w.invoked ++ [key] }) := by
  have hcw : cached m.cache key w = (none, w) := by simp [cached, hc]
  rw [Get_of_stale m key w hidle (Or.inl hc), hcw,
    compute_ok m key m.cache w (Or.inl hc) hfn]
  simp [hc]

/-- Two calls of `Get` in a row on a key with no entry, the wrapped function succeeding
and the entry stored by the first call not expired at the second: one invocation, the
same pair twice. -/
theorem Get_twice [DecidableEq K] [Inhabited V] (m : Memo K V E σ) (key : K)
    (w : World K σ) (hidle : m.sf.records key = none) (hc : m.cache key = none)
    (hfn : (m.fn key w.user).1.2 = none)
    (hfresh : m.cfg.ttl ≤ 0 ∨
      (w.clock (w.reads + 1) : Int) ≤ (w.clock w.reads : Int) + m.cfg.ttl) :
    ∃ m' w', callEach (fun m => m.Get) m [key, key] w =
        some ([(m.fn key w.user).1, (m.fn key w.user).1], m', w') ∧
      w'.invoked = w.invoked ++ [key] := by
  have h1 := Get_absent_ok m key w hidle hc hfn
  have hpair : ((m.fn key w.user).1.1, (none : Option E)) = (m.fn key w.user).1 :=
    Prod.ext rfl hfn.symm
  rw [hpair] at h1
  have hv : ((⟨(m.fn key w.user).1.1,
      if m.cfg.ttl > 0 then ⟨(w.clock w.reads : Int) + m.cfg.ttl⟩ else Time.zero⟩ :
        entry V).expired
      ({ user := (m.fn key w.user).2, clock := w.clock,
         reads := w.reads + (if m.cfg.ttl > 0 then 1 else 0),
         invoked := w.invoked ++ [key] } : World K σ)).1 = false := by
    by_cases ht : m.cfg.ttl > 0
    · have hle : (w.clock (w.reads + 1) : Int) ≤ (w.clock w.reads : Int) + m.cfg.ttl := by
        rcases hfresh with h | h
        · exact absurd h (not_le.2 ht)
        · exact h
      rw [← Bool.not_eq_true, expired_eq_true_iff]
      simp only [ht, if_true]
      intro h
      exact absurd h.2 (not_lt.2 hle)
    · simp only [ht, if_false]
      rw [expired_of_zero _ _ rfl]
  have h2 := Get_of_valid
    ({ m with
        cache := Function.update m.cache key (some
          { val := (m.fn key w.user).1.1
            expiresAt := if m.cfg.ttl > 0 then ⟨(w.clock w.reads : Int) + m.cfg.ttl⟩
              else Time.zero })
        sf := ⟨some m.sf.records⟩ } : Memo K V E σ) key _ _
    (Function.update_same key _ m.cache) hv
  rw [hpair] at h2
  exact ⟨_, _, callEach_two _ h1 h2, (expired_world _ _).2.1⟩

/-! ## Facts about the goroutines inside `do` -/

theorem Wave_step {ρ T : Type} [DecidableEq K] [DecidableEq T] [Inhabited V]
    (prod : T → ρ → (V × Option E) × ρ) (k : K) (a : Nat) (r0 : ρ) (c0 : Nat)
    (s s' : Flights K V E ρ T) (t : T) (hw : Wave prod k a r0 c0 s)
    (hstep : s.step prod t = some s')
    (hov : (s.pc t).isDeleting = true → ∀ u, (s.pc u).isStart = false) :
    Wave prod k a r0 c0 s' := by
  rcases hw with ⟨hall, hreg, hnext, hcalls, hsh⟩ | ⟨L, hw⟩
  · -- nobody has entered: `t` becomes the leader
    simp only [Flights.step, hall t, hreg, Option.some.injEq] at hstep
    subst hstep hnext
    refine Or.inr ⟨t, Or.inl ⟨?_, ?_, ?_, ?_, hcalls, hsh⟩⟩
    · simp
    · intro u hu
      simp [Function.update_noteq hu, hall u]
    · simp [Flights.records]
    · simp
  · rcases hw with ⟨hL, hoth, hreg, hwg, hcalls, hsh⟩ | ⟨hL, hoth, hreg, hheap, hcalls, hsh⟩ |
      ⟨hL, hoth, hreg, hheap, hcalls, hsh⟩ | ⟨hL, hoth, hreg, hheap, hcalls, hsh⟩
    · -- the leader is about to run its producer
      by_cases ht : t = L
      · subst ht
        simp only [Flights.step, hL, Option.some.injEq] at hstep
        subst hstep
        refine Or.inr ⟨t, Or.inr (Or.inl ⟨?_, ?_, hreg, ?_, ?_, ?_⟩)⟩
        · simp
        · intro u hu
          simpa [Function.update_noteq hu] using hoth u hu
        · simp [hsh, hwg.symm]
        · simp [hcalls]
        · simp [hsh]
      · rcases hoth t ht with hs | hwt
        · simp only [Flights.step, hs, hreg, Option.some.injEq] at hstep
          subst hstep
          refine Or.inr ⟨L, Or.inl ⟨?_, ?_, ?_, hwg, hcalls, hsh⟩⟩
          · simp [Function.update_noteq (Ne.symm ht), hL]
          · intro u hu
            by_cases hut : u = t
            · subst hut
              simp
            · simpa [Function.update_noteq hut] using hoth u hu
          · simpa [Flights.records] using hreg
        · simp [Flights.step, hwt, hwg] at hstep
    · -- the producer has run
      by_cases ht : t = L
      · subst ht
        simp only [Flights.step, hL, Option.some.injEq] at hstep
        subst hstep
        refine Or.inr ⟨t, Or.inr (Or.inr (Or.inl ⟨?_, ?_, hreg, ?_, hcalls, hsh⟩))⟩
        · simp
        · intro u hu
          rcases hoth u hu with h | h
          · exact Or.inl (by simpa [Function.update_noteq hu] using h)
          · exact Or.inr (Or.inl (by simpa [Function.update_noteq hu] using h))
        · simp [hheap]
      · rcases hoth t ht with hs | hwt
        · simp only [Flights.step, hs, hreg, Option.some.injEq] at hstep
          subst hstep
          refine Or.inr ⟨L, Or.inr (Or.inl ⟨?_, ?_, ?_, hheap, hcalls, hsh⟩)⟩
          · simp [Function.update_noteq (Ne.symm ht), hL]
          · intro u hu
            by_cases hut : u = t
            · subst hut
              simp
            · simpa [Function.update_noteq hut] using hoth u hu
          · simpa [Flights.records] using hreg
        · simp [Flights.step, hwt, hheap] at hstep
    · -- the record is complete and still registered
      by_cases ht : t = L
      · subst ht
        have hno := hov (by simp [hL, PC.isDeleting])
        simp only [Flights.step, hL, Option.some.injEq] at hstep
        subst hstep
        refine Or.inr ⟨t, Or.inr (Or.inr (Or.inr ⟨?_, ?_, ?_, hheap, hcalls, hsh⟩))⟩
        · simp
        · intro u hu
          rcases hoth u hu with h | h | h
          · exact absurd (hno u) (by simp [h, PC.isStart])
          · exact Or.inl (by simpa [Function.update_noteq hu] using h)
          · exact Or.inr (by simpa [Function.update_noteq hu] using h)
        · simp [Flights.records]
      · rcases hoth t ht with hs | hwt | hd
        · simp only [Flights.step, hs, hreg, Option.some.injEq] at hstep
          subst hstep
          refine Or.inr ⟨L, Or.inr (Or.inr (Or.inl ⟨?_, ?_, ?_, hheap, hcalls, hsh⟩))⟩
          · simp [Function.update_noteq (Ne.symm ht), hL]
          · intro u hu
            by_cases hut : u = t
            · subst hut
              simp
            · simpa [Function.update_noteq hut] using hoth u hu
          · simpa [Flights.records] using hreg
        · simp only [Flights.step, hwt, hheap, if_true, Option.some.injEq] at hstep
          subst hstep
          refine Or.inr ⟨L, Or.inr (Or.inr (Or.inl ⟨?_, ?_, hreg, hheap, hcalls, hsh⟩))⟩
          · simp [Function.update_noteq (Ne.symm ht), hL]
          · intro u hu
            by_cases hut : u = t
            · subst hut
              simp
            · simpa [Function.update_noteq hut] using hoth u hu
        · simp [Flights.step, hd] at hstep
    · -- the record is removed
      by_cases ht : t = L
      · subst ht
        rcases hL with hL | hL
        · simp only [Flights.step, hL, hheap, Option.some.injEq] at hstep
          subst hstep
          refine Or.inr ⟨t, Or.inr (Or.inr (Or.inr ⟨Or.inr ?_, ?_, hreg, hheap, hcalls, hsh⟩))⟩
          · simp
          · intro u hu
            simpa [Function.update_noteq hu] using hoth u hu
        · simp [Flights.step, hL] at hstep
      · rcases hoth t ht with hwt | hd
        · simp only [Flights.step, hwt, hheap, if_true, Option.some.injEq] at hstep
          subst hstep
          refine Or.inr ⟨L, Or.inr (Or.inr (Or.inr ⟨?_, ?_, hreg, hheap, hcalls, hsh⟩))⟩
          · simpa [Function.update_noteq (Ne.symm ht)] using hL
          · intro u hu
            by_cases hut : u = t
            · subst hut
              simp
            · simpa [Function.update_noteq hut] using hoth u hu
        · simp [Flights.step, hd] at hstep


/-- The invariant of a wave holds along every schedule in which all goroutines have
entered before the record is removed. -/
theorem Wave_run {ρ T : Type} [Fintype T] [DecidableEq K] [DecidableEq T] [Inhabited V]
    (prod : T → ρ → (V × Option E) × ρ) (k : K) (a : Nat) (r0 : ρ) (c0 : Nat)
    (sched : List T) :
    ∀ s s' : Flights K V E ρ T, Wave prod k a r0 c0 s → s.run prod sched = some s' →
      s.overlapped prod sched = true → Wave prod k a r0 c0 s' := by
  induction sched with
  | nil =>
    intro s s' hw hrun _
    simp only [Flights.run, Option.some.injEq] at hrun
    exact hrun ▸ hw
  | cons t ts ih =>
    intro s s' hw hrun hov
    cases hst : s.step prod t with
    | none => simp [Flights.run, hst] at hrun
    | some s1 =>
      simp only [Flights.run, hst] at hrun
      simp only [Flights.overlapped, hst, Bool.and_eq_true, Bool.or_eq_true,
        Bool.not_eq_true', decide_eq_true_eq] at hov
      refine ih s1 s' (Wave_step prod k a r0 c0 s s1 t hw hst fun hd => ?_) hrun hov.2
      rcases hov.1 with h | h
      · rw [h] at hd
        exact absurd hd (by simp)
      · exact h

/-- In a wave the producer has run at most once and the callers that have returned
hold the same results. -/
theorem Wave_agree {ρ T : Type} (prod : T → ρ → (V × Option E) × ρ) (k : K) (a : Nat)
    (r0 : ρ) (c0 : Nat) (s : Flights K V E ρ T) (hw : Wave prod k a r0 c0 s) :
    s.calls ≤ c0 + 1 ∧
    ∀ t u out out', s.pc t = .done out → s.pc u = .done out' → out = out' := by
  rcases hw with ⟨hall, -, -, hcalls, -⟩ | ⟨L, ⟨hL, hoth, -, -, hcalls, -⟩ |
    ⟨hL, hoth, -, -, hcalls, -⟩ | ⟨hL, hoth, -, -, hcalls, -⟩ | ⟨hL, hoth, -, -, hcalls, -⟩⟩
  · exact ⟨by omega, fun t u out out' ht _ => by simp [hall t] at ht⟩
  · refine ⟨by omega, fun t u out out' ht _ => ?_⟩
    by_cases h : t = L
    · subst h; simp [hL] at ht
    · rcases hoth t h with h' | h' <;> simp [h'] at ht
  · refine ⟨by omega, fun t u out out' ht _ => ?_⟩
    by_cases h : t = L
    · subst h; simp [hL] at ht
    · rcases hoth t h with h' | h' <;> simp [h'] at ht
  · have key : ∀ t out, s.pc t = .done out → out = (prod L r0).1 := by
      intro t out ht
      by_cases h : t = L
      · subst h; simp [hL] at ht
      · rcases hoth t h with h' | h' | h' <;> simp [h'] at ht
        exact ht.symm
    exact ⟨by omega, fun t u out out' ht hu => (key t out ht).trans (key u out' hu).symm⟩
  · have key : ∀ t out, s.pc t = .done out → out = (prod L r0).1 := by
      intro t out ht
      by_cases h : t = L
      · subst h
        rcases hL with h' | h' <;> simp [h'] at ht
        exact ht.symm
      · rcases hoth t h with h' | h' <;> simp [h'] at ht
        exact ht.symm
    exact ⟨by omega, fun t u out out' ht hu => (key t out ht).trans (key u out' hu).symm⟩

/-- Once every caller of a wave has returned, the producer has run exactly once, by
some caller `L`, and everybody holds what it returned. -/
theorem Wave_done {ρ T : Type} [Nonempty T] (prod : T → ρ → (V × Option E) × ρ) (k : K)
    (a : Nat) (r0 : ρ) (c0 : Nat) (s : Flights K V E ρ T) (hw : Wave prod k a r0 c0 s)
    (hdone : ∀ t, ∃ out, s.pc t = .done out) :
    s.calls = c0 + 1 ∧ ∃ L, (∀ t, s.pc t = .done (prod L r0).1) ∧
      s.shared = (prod L r0).2 ∧ s.records k = none := by
  rcases hw with ⟨hall, -⟩ | ⟨L, ⟨hL, -⟩ | ⟨hL, -⟩ | ⟨hL, -⟩ |
    ⟨hL, hoth, hreg, -, hcalls, hsh⟩⟩
  · obtain ⟨t⟩ := ‹Nonempty T›
    obtain ⟨out, h⟩ := hdone t
    simp [hall t] at h
  · obtain ⟨out, h⟩ := hdone L
    simp [hL] at h
  · obtain ⟨out, h⟩ := hdone L
    simp [hL] at h
  · obtain ⟨out, h⟩ := hdone L
    simp [hL] at h
  · refine ⟨hcalls, L, fun t => ?_, hsh, hreg⟩
    obtain ⟨out, h⟩ := hdone t
    by_cases ht : t = L
    · subst ht
      rcases hL with h' | h'
      · simp [h'] at h
      · exact h'
    · rcases hoth t ht with h' | h'
      · simp [h'] at h
      · exact h'

/-- No deadlock in a wave: as long as a caller has not returned, some goroutine can
move, and it can do so with every goroutine entering before the record is removed. -/
theorem Wave_progress {ρ T : Type} [Fintype T] [DecidableEq K] [DecidableEq T]
    [Inhabited V]
    (prod : T → ρ → (V × Option E) × ρ) (k : K) (a : Nat) (r0 : ρ) (c0 : Nat)
    (s : Flights K V E ρ T) (hw : Wave prod k a r0 c0 s)
    (hnot : ∃ t, ∀ out, s.pc t ≠ .done out) :
    ∃ t s', s.step prod t = some s' ∧ s.overlapped prod [t] = true := by
  have free : ∀ t s', s.step prod t = some s' → (s.pc t).isDeleting = false →
      ∃ t s', s.step prod t = some s' ∧ s.overlapped prod [t] = true := by
    intro t s' hs hd
    exact ⟨t, s', hs, by simp [Flights.overlapped, hs, hd]⟩
  have start_moves : ∀ t, s.pc t = .start k → ∃ t s', s.step prod t = some s' ∧
      s.overlapped prod [t] = true := by
    intro t ht
    cases hr : s.records k with
    | none =>
      exact free t _ (by simp only [Flights.step, ht, hr]; rfl) (by simp [ht, PC.isDeleting])
    | some c =>
      exact free t _ (by simp only [Flights.step, ht, hr]; rfl) (by simp [ht, PC.isDeleting])
  have wait_moves : ∀ t, s.pc t = .waiting a → (s.heap a).wg = 0 →
      ∃ t s', s.step prod t = some s' ∧ s.overlapped prod [t] = true := by
    intro t ht hwg
    exact free t _ (by simp only [Flights.step, ht, hwg, if_true]; rfl)
      (by simp [ht, PC.isDeleting])
  obtain ⟨t0, ht0⟩ := hnot
  rcases hw with ⟨hall, -⟩ | ⟨L, ⟨hL, -⟩ | ⟨hL, -⟩ | ⟨hL, hoth, -, hheap, -⟩ |
    ⟨hL, hoth, -, hheap, -⟩⟩
  · exact start_moves t0 (hall t0)
  · exact free L _ (by simp only [Flights.step, hL]; rfl) (by simp [hL, PC.isDeleting])
  · exact free L _ (by simp only [Flights.step, hL]; rfl) (by simp [hL, PC.isDeleting])
  · by_cases hs : ∃ u, s.pc u = .start k
    · obtain ⟨u, hu⟩ := hs
      exact start_moves u hu
    · have hno : ∀ u, (s.pc u).isStart = false := by
        intro u
        by_cases huL : u = L
        · subst huL
          simp [hL, PC.isStart]
        · rcases hoth u huL with h | h | h
          · exact absurd ⟨u, h⟩ hs
          · simp [h, PC.isStart]
          · simp [h, PC.isStart]
      exact ⟨L, _, by simp only [Flights.step, hL]; rfl,
        by simp [Flights.overlapped, Flights.step, hL, hno]⟩
  · by_cases h0 : t0 = L
    · subst h0
      rcases hL with h | h
      · exact free t0 _ (by simp only [Flights.step, h]; rfl) (by simp [h, PC.isDeleting])
      · exact absurd h (ht0 _)
    · rcases hoth t0 h0 with h | h
      · exact wait_moves t0 h (by rw [hheap])
      · exact absurd h (ht0 _)

/-- Every step of a goroutine brings it closer to its return. -/
theorem step_todo {ρ T : Type} [DecidableEq K] [DecidableEq T] [Inhabited V]
    (prod : T → ρ → (V × Option E) × ρ) (s s' : Flights K V E ρ T) (t : T)
    (hstep : s.step prod t = some s') :
    (s'.pc t).todo < (s.pc t).todo ∧ ∀ u, u ≠ t → s'.pc u = s.pc u := by
  unfold Flights.step at hstep
  cases hpc : s.pc t with
  | start key =>
    rw [hpc] at hstep
    cases hr : s.records key with
    | none =>
      simp only [hr, Option.some.injEq] at hstep
      subst hstep
      exact ⟨by simp [PC.todo], fun u hu => Function.update_noteq hu _ _⟩
    | some c =>
      simp only [hr, Option.some.injEq] at hstep
      subst hstep
      exact ⟨by simp [PC.todo], fun u hu => Function.update_noteq hu _ _⟩
  | waiting c =>
    rw [hpc] at hstep
    by_cases hwg : (s.heap c).wg = 0
    · simp only [hwg, if_true, Option.some.injEq] at hstep
      subst hstep
      exact ⟨by simp [PC.todo], fun u hu => Function.update_noteq hu _ _⟩
    · simp [hwg] at hstep
  | running key c =>
    simp only [hpc, Option.some.injEq] at hstep
    subst hstep
    exact ⟨by simp [PC.todo], fun u hu => Function.update_noteq hu _ _⟩
  | finishing key c =>
    simp only [hpc, Option.some.injEq] at hstep
    subst hstep
    exact ⟨by simp [PC.todo], fun u hu => Function.update_noteq hu _ _⟩
  | deleting key c =>
    simp only [hpc, Option.some.injEq] at hstep
    subst hstep
    exact ⟨by simp [PC.todo], fun u hu => Function.update_noteq hu _ _⟩
  | returning c =>
    simp only [hpc, Option.some.injEq] at hstep
    subst hstep
    exact ⟨by simp [PC.todo], fun u hu => Function.update_noteq hu _ _⟩
  | done out => simp [hpc] at hstep

/-- A schedule that runs is no longer than the steps the goroutines had left. -/
theorem run_length {ρ T : Type} [Fintype T] [DecidableEq K] [DecidableEq T] [Inhabited V]
    (prod : T → ρ → (V × Option E) × ρ) (sched : List T) :
    ∀ s s' : Flights K V E ρ T, s.run prod sched = some s' →
      (Finset.univ.sum fun u => (s'.pc u).todo) + sched.length ≤
        Finset.univ.sum fun u => (s.pc u).todo := by
  induction sched with
  | nil =>
    intro s s' hrun
    simp only [Flights.run, Option.some.injEq] at hrun
    simp [hrun]
  | cons t ts ih =>
    intro s s' hrun
    cases hst : s.step prod t with
    | none => simp [Flights.run, hst] at hrun
    | some s1 =>
      simp only [Flights.run, hst] at hrun
      have h1 := ih s1 s' hrun
      obtain ⟨hlt, hsame⟩ := step_todo prod s s1 t hst
      have h2 : (Finset.univ.sum fun u => (s1.pc u).todo) <
          Finset.univ.sum fun u => (s.pc u).todo := by
        refine Finset.sum_lt_sum (fun u _ => ?_) ⟨t, Finset.mem_univ t, hlt⟩
        by_cases hu : u = t
        · subst hu
          exact le_of_lt hlt
        · rw [hsame u hu]
      simp only [List.length_cons]
      omega

/-- The callers of `Get` that missed the store and meet in the coalescer: when `n`
goroutines call `do` for `k` with the closure of `Get` on a store with no valid entry for
`k`, and all enter before the record is removed, then once all have returned the wrapped
function has been invoked exactly once and every caller holds what it returned. -/
theorem Get_callers_collapse [DecidableEq K] [Inhabited V] (n : Nat) (hn : 1 ≤ n)
    (m : Memo K V E σ) (k : K) (w : World K σ)
    (s0 : Flights K V E ((K → Option (entry V)) × World K σ) (Fin n))
    (hstart : ∀ t, s0.pc t = .start k) (hreg : s0.records k = none)
    (hsh : s0.shared = (m.cache, w)) (hst : stale m.cache k w)
    (sched : List (Fin n)) (s : Flights K V E ((K → Option (entry V)) × World K σ) (Fin n))
    (hrun : s0.run (fun _ => m.compute k) sched = some s)
    (hov : s0.overlapped (fun _ => m.compute k) sched = true)
    (hdone : ∀ t, ∃ out, s.pc t = .done out) :
    (∀ t, s.pc t = .done (m.fn k w.user).1) ∧ s.shared.2.invoked = w.invoked ++ [k] := by
  haveI : Nonempty (Fin n) := ⟨⟨0, by omega⟩⟩
  have hw0 : Wave (fun _ : Fin n => m.compute k) k s0.next s0.shared s0.calls s0 :=
    Or.inl ⟨hstart, hreg, rfl, rfl, rfl⟩
  have hw := Wave_run _ k _ _ _ sched s0 s hw0 hrun hov
  obtain ⟨-, L, hall, hshared, -⟩ := Wave_done _ k _ _ _ s hw hdone
  rcases compute_cases m k m.cache w with ⟨e, he, hv, -⟩ | ⟨-, w', hc, -, hinv, -⟩
  · rcases hst with h | ⟨e', h, hx⟩
    · rw [h] at he
      exact absurd he (by simp)
    · rw [h] at he
      rw [← Option.some.inj he, hx] at hv
      exact absurd hv (by simp)
  · rw [hsh] at hall hshared
    simp only [hc] at hall hshared
    exact ⟨hall, by rw [hshared]; exact hinv⟩

/-- The callers of `do` for one key, scheduled so that every one enters before the
record of the first is removed: the schedule is bounded, the producers are invoked at
most once, the callers that have returned agree, no deadlock, and once all have returned
one producer has run and everybody holds its results. -/
theorem do_callers_collapse {ρ : Type} [DecidableEq K] [Inhabited V] (n : Nat)
    (hn : 1 ≤ n) (k : K) (prod : Fin n → ρ → (V × Option E) × ρ)
    (s0 : Flights K V E ρ (Fin n)) (hstart : ∀ t, s0.pc t = .start k)
    (hreg : s0.records k = none) (sched : List (Fin n)) (s : Flights K V E ρ (Fin n))
    (hrun : s0.run prod sched = some s) (hov : s0.overlapped prod sched = true) :
    sched.length ≤ 5 * n ∧
    s.calls ≤ s0.calls + 1 ∧
    (∀ t u out out', s.pc t = .done out → s.pc u = .done out' → out = out') ∧
    ((∃ t, ∀ out, s.pc t ≠ .done out) →
      ∃ t s', s.step prod t = some s' ∧ s.overlapped prod [t] = true) ∧
    ((∀ t, ∃ out, s.pc t = .done out) →
      s.calls = s0.calls + 1 ∧
      ∃ L, (∀ t, s.pc t = .done (prod L s0.shared).1) ∧
        s.shared = (prod L s0.shared).2 ∧ s.records k = none) := by
  haveI : Nonempty (Fin n) := ⟨⟨0, by omega⟩⟩
  have hw0 : Wave prod k s0.next s0.shared s0.calls s0 :=
    Or.inl ⟨hstart, hreg, rfl, rfl, rfl⟩
  have hw := Wave_run prod k _ _ _ sched s0 s hw0 hrun hov
  have hlen := run_length prod sched s0 s hrun
  refine ⟨?_, (Wave_agree prod k _ _ _ s hw).1, (Wave_agree prod k _ _ _ s hw).2,
    Wave_progress prod k _ _ _ s hw, Wave_done prod k _ _ _ s hw⟩
  have h5 : (Finset.univ.sum fun u : Fin n => (s0.pc u).todo) = 5 * n := by
    simp [hstart, PC.todo, mul_comm]
  omega

/-! ## The claims -/

/-- C1 (cache hit). If the store holds for `k` an entry `e` whose `expired()` answers
false at the reading of the call, `Get k` returns `(e.val, nil)`, the memo (its store
included) is unchanged, and the wrapped function is not invoked: the invocation log and
the user state are as before. -/
theorem C1_Get_cache_hit [DecidableEq K] [Inhabited V] (m : Memo K V E σ) (k : K)
    (w : World K σ) (e : entry V) (h : m.cache k = some e)
    (hv : (e.expired w).1 = false) :
    ∃ w', m.Get k w = some ((e.val, none), m, w') ∧
      w'.invoked = w.invoked ∧ w'.user = w.user :=
  ⟨_, Get_of_valid m k w e h hv, (expired_world e w).2.1, (expired_world e w).1⟩

theorem C1_Get_cache_hit_witness :
    exMemo.cache 2 = some ⟨6, ⟨130⟩⟩ ∧
    ∃ w', exMemo.Get 2 exWorld = some ((6, none), exMemo, w') ∧
      w'.invoked = exWorld.invoked ∧ w'.user = exWorld.user :=
  ⟨rfl, C1_Get_cache_hit exMemo 2 exWorld ⟨6, ⟨130⟩⟩ rfl rfl⟩

/-- C2 (cache miss with success). Let the registry hold no record for `k`, the clock not
run backwards, the store hold no entry for `k` or only an expired one, and `fn k` return
`(v, nil)`. Then `Get k` returns `(v, nil)`, invokes `fn` exactly once (the log grows by
`k`), and the store afterwards is the old one with `k` mapped to a new entry of value
`v`. Its `expiresAt` is the zero time when `ttl <= 0`, and reading `i` of the clock plus
`ttl` when `ttl > 0`, where `i` is the first reading taken after `fn` returned: the two
expiry checks of an expired entry took the two readings before it. -/
theorem C2_Get_miss_success [DecidableEq K] [Inhabited V] (m : Memo K V E σ) (k : K)
    (w : World K σ) (v : V) (hidle : m.sf.records k = none) (hmono : Monotone w.clock)
    (hst : stale m.cache k w) (hfn : (m.fn k w.user).1 = (v, none)) :
    ∃ m' w' i, m.Get k w = some ((v, none), m', w') ∧
      w'.invoked = w.invoked ++ [k] ∧ w'.user = (m.fn k w.user).2 ∧
      i = (if (m.cache k).isSome then w.reads + 2 else w.reads) ∧
      w'.reads = i + (if m.cfg.ttl > 0 then 1 else 0) ∧
      m'.cache = Function.update m.cache k (some
        { val := v
          expiresAt := if m.cfg.ttl > 0 then (⟨(w.clock i : Int)⟩ : Time).Add m.cfg.ttl
            else Time.zero }) ∧
      m'.fn = m.fn ∧ m'.cfg = m.cfg := by
  have h2 : (m.fn k w.user).1.2 = none := by rw [hfn]
  have h1 : (m.fn k w.user).1.1 = v := by rw [hfn]
  have hget := Get_miss_ok m k w hidle hst hmono h2
  rw [h1] at hget
  refine ⟨_, _, _, hget, rfl, rfl, rfl, rfl, ?_, rfl, rfl⟩
  simp only [Time.Add]

theorem C2_Get_miss_success_witness :
    stale exMemo.cache 1 exWorld ∧
    ∃ m' w' i, exMemo.Get 1 exWorld = some ((2, none), m', w') ∧
      w'.invoked = exWorld.invoked ++ [1] ∧ w'.user = (exMemo.fn 1 exWorld.user).2 ∧
      i = (if (exMemo.cache 1).isSome then exWorld.reads + 2 else exWorld.reads) ∧
      w'.reads = i + (if exMemo.cfg.ttl > 0 then 1 else 0) ∧
      m'.cache = Function.update exMemo.cache 1 (some
        { val := 2
          expiresAt := if exMemo.cfg.ttl > 0 then
            (⟨(exWorld.clock i : Int)⟩ : Time).Add exMemo.cfg.ttl else Time.zero }) ∧
      m'.fn = exMemo.fn ∧ m'.cfg = exMemo.cfg :=
  ⟨Or.inr ⟨_, rfl, rfl⟩,
    C2_Get_miss_success exMemo 1 exWorld 2 rfl exWorld_mono (Or.inr ⟨_, rfl, rfl⟩) rfl⟩

/-- C3 (failures are not cached). Let the registry hold no record for `k`, the clock not
run backwards, the store hold no valid entry for `k`, and `fn k` return `(v, err)` with
`err` non-nil. Then `Get k` returns that `err` (with `v`), the store after the call is
the store before it, and the `Get k` that follows invokes `fn` again. -/
theorem C3_Get_failure_not_cached [DecidableEq K] [Inhabited V] (m : Memo K V E σ)
    (k : K) (w : World K σ) (v : V) (err : E) (hidle : m.sf.records k = none)
    (hmono : Monotone w.clock) (hst : stale m.cache k w)
    (hfn : (m.fn k w.user).1 = (v, some err)) :
    ∃ m' w', m.Get k w = some ((v, some err), m', w') ∧ m'.cache = m.cache ∧
      w'.invoked = w.invoked ++ [k] ∧
      ∃ out m'' w'', m'.Get k w' = some (out, m'', w'') ∧
        out = (m.fn k w'.user).1 ∧ w''.invoked = w.invoked ++ [k, k] := by
  have h2 : (m.fn k w.user).1.2 = some err := by rw [hfn]
  have h1 : (m.fn k w.user).1.1 = v := by rw [hfn]
  have hget := Get_miss_fail m k w err hidle hst hmono h2
  rw [h1] at hget
  refine ⟨_, _, hget, rfl, rfl, ?_⟩
  have hst' : stale m.cache k
      ({ user := (m.fn k w.user).2, clock := w.clock,
         reads := if (m.cache k).isSome then w.reads + 2 else w.reads,
         invoked := w.invoked ++ [k] } : World K σ) :=
    stale_later m.cache k w _ hst hmono rfl (by dsimp only; split <;> omega)
  obtain ⟨m'', w'', hg, hinv, -⟩ :=
    Get_miss ({ m with sf := ⟨some m.sf.records⟩ }) k _ hidle hst' hmono
  exact ⟨_, m'', w'', hg, rfl, by rw [hinv]; simp⟩

theorem C3_Get_failure_not_cached_witness :
    stale exMemo.cache 0 exWorld ∧
    ∃ m' w', exMemo.Get 0 exWorld = some ((7, some "fail"), m', w') ∧
      m'.cache = exMemo.cache ∧ w'.invoked = exWorld.invoked ++ [0] ∧
      ∃ out m'' w'', m'.Get 0 w' = some (out, m'', w'') ∧
        out = (exMemo.fn 0 w'.user).1 ∧ w''.invoked = exWorld.invoked ++ [0, 0] :=
  ⟨Or.inr ⟨_, rfl, rfl⟩,
    C3_Get_failure_not_cached exMemo 0 exWorld 7 "fail" rfl exWorld_mono
      (Or.inr ⟨_, rfl, rfl⟩) rfl⟩

/-- C4 (concurrent identical-key calls collapse). Let `n >= 2` goroutines call `do` for
the key `k` on one coalescer whose registry holds no record for `k`, and let them be
scheduled in any order in which every goroutine enters `do` before the record of the
first one is removed from the registry (the first computation is still in flight).

First part, any producers: the schedule has at most `5 n` steps; at every point the
producers have been invoked at most once in total and the callers that have returned
hold the same `(value, error)` pair; as long as a caller has not returned some goroutine
can move; and once all have returned, exactly one producer invocation has been made, by
some caller `L`, and every caller has received the pair that invocation returned.

Second part, the callers of `Get k` that found no valid entry for `k` and call `do` with
the closure of `Get`: once all have returned, the wrapped function has been invoked
exactly once and every caller has received the pair it returned. -/
theorem C4_concurrent_calls_collapse [DecidableEq K] [Inhabited V] (n : Nat)
    (hn : 2 ≤ n) (k : K) :
    (∀ (ρ : Type) (prod : Fin n → ρ → (V × Option E) × ρ)
      (s0 s : Flights K V E ρ (Fin n)) (sched : List (Fin n)),
      (∀ t, s0.pc t = .start k) → s0.records k = none →
      s0.run prod sched = some s → s0.overlapped prod sched = true →
        sched.length ≤ 5 * n ∧
        s.calls ≤ s0.calls + 1 ∧
        (∀ t u out out', s.pc t = .done out → s.pc u = .done out' → out = out') ∧
        ((∃ t, ∀ out, s.pc t ≠ .done out) →
          ∃ t s', s.step prod t = some s' ∧ s.overlapped prod [t] = true) ∧
        ((∀ t, ∃ out, s.pc t = .done out) →
          s.calls = s0.calls + 1 ∧
          ∃ L, (∀ t, s.pc t = .done (prod L s0.shared).1) ∧
            s.shared = (prod L s0.shared).2 ∧ s.records k = none)) ∧
    (∀ (m : Memo K V E σ) (w : World K σ)
      (s0 s : Flights K V E ((K → Option (entry V)) × World K σ) (Fin n))
      (sched : List (Fin n)),
      (∀ t, s0.pc t = .start k) → s0.records k = none →
      s0.shared = (m.cache, w) → stale m.cache k w →
      s0.run (fun _ => m.compute k) sched = some s →
      s0.overlapped (fun _ => m.compute k) sched = true →
      (∀ t, ∃ out, s.pc t = .done out) →
        (∀ t, s.pc t = .done (m.fn k w.user).1) ∧
        s.shared.2.invoked = w.invoked ++ [k]) :=
  ⟨fun _ prod s0 s sched hstart hreg hrun hov =>
      do_callers_collapse n (by omega) k prod s0 hstart hreg sched s hrun hov,
    fun m w s0 s sched hstart hreg hsh hst hrun hov hdone =>
      Get_callers_collapse n (by omega) m k w s0 hstart hreg hsh hst sched s hrun hov hdone⟩

theorem C4_concurrent_calls_collapse_witness :
    (exFlights.run exProd exSched = some exLanded ∧
      exFlights.overlapped exProd exSched = true ∧
      exLanded.calls = 1 ∧ exLanded.shared = 1 ∧
      ∀ t, exLanded.pc t = .done (10, none)) ∧
    (exGetFlights.run (fun _ => exMemo.compute 1) exSched = some exGetLanded ∧
      exGetFlights.overlapped (fun _ => exMemo.compute 1) exSched = true ∧
      stale exMemo.cache 1 exWorld ∧
      (∀ t, exGetLanded.pc t = .done (2, none)) ∧
      exGetLanded.shared.2.invoked = [1]) := by
  have hrun : exFlights.run exProd exSched = some exLanded := by
    unfold exLanded
    rfl
  have hrun2 : exGetFlights.run (fun _ => exMemo.compute 1) exSched = some exGetLanded := by
    unfold exGetLanded
    rfl
  have hst : stale exMemo.cache 1 exWorld := Or.inr ⟨_, rfl, rfl⟩
  have h := ((@C4_concurrent_calls_collapse Nat Nat String Nat _ _ 3 (by decide) 7).1
    Nat exProd exFlights exLanded exSched (fun _ => rfl) rfl hrun (by decide)).2.2.2.2
      (fun t => by fin_cases t <;> exact ⟨_, rfl⟩)
  have h2 := (@C4_concurrent_calls_collapse Nat Nat String Nat _ _ 3 (by decide) 1).2
    exMemo exWorld exGetFlights exGetLanded exSched (fun _ => rfl) rfl rfl hst hrun2
      (by decide) (fun t => by fin_cases t <;> exact ⟨_, rfl⟩)
  obtain ⟨hc, L, hall, hsh, -⟩ := h
  exact ⟨⟨hrun, by decide, hc, rfl, fun t => by fin_cases t <;> rfl⟩,
    hrun2, by decide, hst, h2.1, h2.2⟩

/-- C5 as stated fails: with a wrapped function that fails on its first invocation, two
consecutive `Get 0` on a fresh memo without TTL invoke it twice and return different
values. -/
theorem C5_two_Gets_counterexample :
    ∃ m1 w1 m2 w2,
      (New exFlaky []).Get 0 exWorld = some ((0, some "fail"), m1, w1) ∧
      m1.Get 0 w1 = some ((1, none), m2, w2) ∧
      w2.invoked = exWorld.invoked ++ [0, 0] :=
  ⟨_, _, _, _, rfl, rfl, rfl⟩

/-- C5 (amended). With no record for `k` in the registry, the first `Get k` returns and
invokes `fn` at most once; if it returns a nil error, the store then holds an entry for
`k` with the returned value, and a second `Get k` made while that entry is not expired
(no `Forget`, `Purge` or expiry in between) invokes nothing and returns the same value
with a nil error. -/
theorem C5_two_Gets [DecidableEq K] [Inhabited V] (m : Memo K V E σ) (k : K)
    (w : World K σ) (hidle : m.sf.records k = none) :
    ∃ v err m1 w1, m.Get k w = some ((v, err), m1, w1) ∧
      (w1.invoked = w.invoked ∨ w1.invoked = w.invoked ++ [k]) ∧
      (err = none → ∃ e, m1.cache k = some e ∧ e.val = v ∧
        ∀ w2 : World K σ, (e.expired w2).1 = false →
          ∃ w3, m1.Get k w2 = some ((v, none), m1, w3) ∧ w3.invoked = w2.invoked) := by
  obtain ⟨out, m1, w1, hget, hinv, hentry⟩ := Get_ok_entry m k w hidle
  refine ⟨out.1, out.2, m1, w1, hget, hinv, fun herr => ?_⟩
  obtain ⟨e, he, hval⟩ := hentry herr
  refine ⟨e, he, hval, fun w2 hv => ⟨_, ?_, (expired_world e w2).2.1⟩⟩
  rw [Get_of_valid m1 k w2 e he hv, hval]

theorem C5_two_Gets_witness :
    ∃ v err m1 w1, exMemo.Get 1 exWorld = some ((v, err), m1, w1) ∧
      (w1.invoked = exWorld.invoked ∨ w1.invoked = exWorld.invoked ++ [1]) ∧
      (err = none → ∃ e, m1.cache 1 = some e ∧ e.val = v ∧
        ∀ w2 : World Nat Nat, (e.expired w2).1 = false →
          ∃ w3, m1.Get 1 w2 = some ((v, none), m1, w3) ∧ w3.invoked = w2.invoked) :=
  C5_two_Gets exMemo 1 exWorld rfl

/-- C6 (TTL expiry). Let `ttl = T > 0`, the registry hold no record for `k`, the clock
not run backwards, the store hold no valid entry for `k` and `fn k` succeed with `v`.
Then `Get k` stores an entry expiring at `t + T`, `t` being the reading taken when it
was stored. A later `Get k` whose reading is beyond `t + T` invokes `fn` again; one whose
reading is before `t + T` invokes nothing and returns `v`. -/
theorem C6_ttl_expiry [DecidableEq K] [Inhabited V] (m : Memo K V E σ) (k : K)
    (w : World K σ) (v : V) (hidle : m.sf.records k = none) (hmono : Monotone w.clock)
    (hst : stale m.cache k w) (hT : m.cfg.ttl > 0) (hfn : (m.fn k w.user).1 = (v, none)) :
    ∃ m1 w1 t, m.Get k w = some ((v, none), m1, w1) ∧
      t = w.clock (if (m.cache k).isSome then w.reads + 2 else w.reads) ∧
      m1.cache k = some ⟨v, ⟨(t : Int) + m.cfg.ttl⟩⟩ ∧
      (∀ w2 : World K σ, Monotone w2.clock →
        (t : Int) + m.cfg.ttl < (w2.clock w2.reads : Int) →
        ∃ out m2 w3, m1.Get k w2 = some (out, m2, w3) ∧
          w3.invoked = w2.invoked ++ [k]) ∧
      (∀ w2 : World K σ, (w2.clock w2.reads : Int) < (t : Int) + m.cfg.ttl →
        ∃ w3, m1.Get k w2 = some ((v, none), m1, w3) ∧ w3.invoked = w2.invoked) := by
  have h2 : (m.fn k w.user).1.2 = none := by rw [hfn]
  have h1 : (m.fn k w.user).1.1 = v := by rw [hfn]
  have hget := Get_miss_ok m k w hidle hst hmono h2
  rw [h1] at hget
  simp only [hT, if_true] at hget
  refine ⟨_, _, _, hget, rfl, Function.update_same _ _ _, ?_, ?_⟩
  · intro w2 hm2 hlate
    have hT' : (0 : Int) < m.cfg.ttl := hT
    exact Get_of_expired _ k w2 _ hidle (Function.update_same _ _ _) hm2
      ((expired_eq_true_iff _ w2).2 ⟨by dsimp only; omega, hlate⟩)
  · intro w2 hearly
    have hv : ((⟨v, ⟨(w.clock (if (m.cache k).isSome then w.reads + 2 else w.reads) : Int)
        + m.cfg.ttl⟩⟩ : entry V).expired w2).1 = false := by
      rw [← Bool.not_eq_true, expired_eq_true_iff]
      dsimp only
      omega
    exact ⟨_, Get_of_valid _ k w2 _ (Function.update_same _ _ _) hv,
      (expired_world _ w2).2.1⟩

theorem C6_ttl_expiry_witness :
    (stale exMemo.cache 1 exWorld ∧ exMemo.cfg.ttl > 0) ∧
    ∃ m1 w1 t, exMemo.Get 1 exWorld = some ((2, none), m1, w1) ∧
      t = exWorld.clock (if (exMemo.cache 1).isSome then exWorld.reads + 2
        else exWorld.reads) ∧
      m1.cache 1 = some ⟨2, ⟨(t : Int) + exMemo.cfg.ttl⟩⟩ ∧
      (∀ w2 : World Nat Nat, Monotone w2.clock →
        (t : Int) + exMemo.cfg.ttl < (w2.clock w2.reads : Int) →
        ∃ out m2 w3, m1.Get 1 w2 = some (out, m2, w3) ∧
          w3.invoked = w2.invoked ++ [1]) ∧
      (∀ w2 : World Nat Nat, (w2.clock w2.reads : Int) < (t : Int) + exMemo.cfg.ttl →
        ∃ w3, m1.Get 1 w2 = some ((2, none), m1, w3) ∧ w3.invoked = w2.invoked) :=
  ⟨⟨Or.inr ⟨_, rfl, rfl⟩, by decide⟩,
    C6_ttl_expiry exMemo 1 exWorld 2 rfl exWorld_mono (Or.inr ⟨_, rfl, rfl⟩)
      (by decide) rfl⟩

/-- C7 as stated fails: an entry checked exactly at its `expiresAt` is still valid. -/
theorem C7_entry_validity_counterexample :
    ((⟨5, ⟨100⟩⟩ : entry Nat).expired exWorld).1 = false ∧
    (exWorld.clock exWorld.reads : Int) = (⟨5, ⟨100⟩⟩ : entry Nat).expiresAt.ns ∧
    ¬ ((⟨5, ⟨100⟩⟩ : entry Nat).expiresAt.IsZero = true ∨
        (exWorld.clock exWorld.reads : Int) < (⟨5, ⟨100⟩⟩ : entry Nat).expiresAt.ns) := by
  decide

/-- C7 (amended). `expired()` returns false if and only if `expiresAt` is the zero time
or is not earlier than the reading `now` of the clock; an entry checked at exactly
`now = expiresAt` is valid, and it is expired at every later reading. -/
theorem C7_entry_validity (e : entry V) (w : World K σ) :
    ((e.expired w).1 = false ↔
      e.expiresAt.IsZero = true ∨ (w.clock w.reads : Int) ≤ e.expiresAt.ns) := by
  rw [← Bool.not_eq_true, expired_eq_true_iff]
  simp only [Time.IsZero, beq_iff_eq]
  constructor
  · intro h
    by_cases hz : e.expiresAt.ns = 0
    · exact Or.inl hz
    · exact Or.inr (not_lt.1 fun hlt => h ⟨hz, hlt⟩)
  · rintro (hz | hle) ⟨hnz, hlt⟩
    · exact hnz hz
    · exact absurd hlt (not_lt.2 hle)

/-- C8 (no expiry for a non-positive TTL). Take a memo built with no option or with
`WithTTL d` for some `d <= 0`, and any sequence of `Get`, `Forget` and `Purge` calls on
it. The calls return, and in the state reached every stored entry has the zero
`expiresAt` and is reported not expired in every world. Moreover, every `Get k` made
there returns, and if it returns a nil error with value `v`, then after any further
calls that neither forget `k` nor purge, in whatever worlds, `Get k` returns `(v, nil)`
without invoking `fn` and without changing the memo. -/
theorem C8_no_expiry_for_nonpositive_ttl [DecidableEq K] [Inhabited V]
    (fn : K → σ → (V × Option E) × σ) (opts : List Opt)
    (hopts : opts = [] ∨ ∃ d : Duration, d ≤ 0 ∧ opts = [WithTTL d])
    (ops : List (Op K)) (w0 : World K σ) :
    ∃ outs m w, (New fn opts : Memo K V E σ).run ops w0 = some (outs, m, w) ∧
      (∀ k e, m.cache k = some e →
        e.expiresAt = Time.zero ∧ ∀ w' : World K σ, (e.expired w').1 = false) ∧
      ∀ (k : K) (wa : World K σ), ∃ v err m1 w1, m.Get k wa = some ((v, err), m1, w1) ∧
        (err = none → ∀ (ops2 : List (Op K)) (wb : World K σ),
          (∀ op ∈ ops2, op.keeps k = true) →
          ∃ outs2 m2 w2, m1.run ops2 wb = some (outs2, m2, w2) ∧
            ∀ wc : World K σ, ∃ w3, m2.Get k wc = some ((v, none), m2, w3) ∧
              w3.invoked = wc.invoked ∧ w3.user = wc.user) := by
  have hcfg : (New fn opts : Memo K V E σ).cfg.ttl ≤ 0 := by
    rcases hopts with h | ⟨d, hd, h⟩
    · subst h
      exact le_refl _
    · subst h
      exact hd
  obtain ⟨outs, m, w, hrun, hq, httl, hzero⟩ :=
    run_preserves (fun m : Memo K V E σ =>
        m.cfg.ttl ≤ 0 ∧ ∀ k e, m.cache k = some e → e.expiresAt = Time.zero)
      (fun _ => True) (fun m op w _ hq hp => step_no_expiry m op w hq hp) ops
      (New fn opts) w0 (fun _ _ => trivial) (New_quiet fn opts)
      ⟨hcfg, fun k e he => by simp [New] at he⟩
  refine ⟨outs, m, w, hrun, fun k e he => ⟨hzero k e he, fun w' => by
    rw [expired_of_zero e w' (hzero k e he)]⟩, fun k wa => ?_⟩
  obtain ⟨out1, m1, w1, hget, -, hentry⟩ := Get_ok_entry m k wa (hq k)
  obtain ⟨outs1, m1', w1', hstep, hq1, -, hzero1⟩ :=
    step_no_expiry m (.get k) wa hq ⟨httl, hzero⟩
  have hm1 : m1' = m1 := by
    simp only [Memo.step, hget, Option.some.injEq, Prod.mk.injEq] at hstep
    exact hstep.2.1.symm
  subst hm1
  refine ⟨out1.1, out1.2, m1', w1, hget, fun herr ops2 wb hkeep => ?_⟩
  obtain ⟨e, he, hval⟩ := hentry herr
  have hz := hzero1 k e he
  obtain ⟨outs2, m2, w2, hrun2, -, hpin⟩ :=
    run_preserves (fun m : Memo K V E σ => m.cache k = some e) (fun op => op.keeps k = true)
      (fun m op w hop hq hp => step_keeps k e hz m op w hop hq hp) ops2 m1' wb hkeep hq1 he
  refine ⟨outs2, m2, w2, hrun2, fun wc => ⟨wc, ?_, rfl, rfl⟩⟩
  have hv : (e.expired wc).1 = false := by rw [expired_of_zero e wc hz]
  rw [Get_of_valid m2 k wc e hpin hv, expired_of_zero e wc hz, hval]

theorem C8_no_expiry_for_nonpositive_ttl_witness :
    (-5 : Duration) ≤ 0 ∧
    ∃ outs m w, (New exFn [WithTTL (-5)] : Memo Nat Nat String Nat).run
        [Op.get 1, Op.forget 2] exWorld = some (outs, m, w) ∧
      (∀ k e, m.cache k = some e →
        e.expiresAt = Time.zero ∧ ∀ w' : World Nat Nat, (e.expired w').1 = false) ∧
      ∀ (k : Nat) (wa : World Nat Nat), ∃ v err m1 w1,
        m.Get k wa = some ((v, err), m1, w1) ∧
        (err = none → ∀ (ops2 : List (Op Nat)) (wb : World Nat Nat),
          (∀ op ∈ ops2, op.keeps k = true) →
          ∃ outs2 m2 w2, m1.run ops2 wb = some (outs2, m2, w2) ∧
            ∀ wc : World Nat Nat, ∃ w3, m2.Get k wc = some ((v, none), m2, w3) ∧
              w3.invoked = wc.invoked ∧ w3.user = wc.user) :=
  ⟨by decide, C8_no_expiry_for_nonpositive_ttl exFn [WithTTL (-5)]
    (Or.inr ⟨-5, by decide, rfl⟩) [Op.get 1, Op.forget 2] exWorld⟩

/-- C9 (Forget). After `Forget k` the store has no entry for `k` and the entries of the
other keys are as before; on a store with no entry for `k` the store is unchanged;
`Forget k` twice is `Forget k` once; and, with no record for `k` in the registry, the
next `Get k` invokes `fn` and returns what it returned. -/
theorem C9_Forget [DecidableEq K] [Inhabited V] (m : Memo K V E σ) (k : K)
    (hidle : m.sf.records k = none) :
    (m.Forget k).cache k = none ∧
    (∀ k', k' ≠ k → (m.Forget k).cache k' = m.cache k') ∧
    (m.cache k = none → m.Forget k = m) ∧
    (m.Forget k).Forget k = m.Forget k ∧
    ∀ w : World K σ, ∃ m' w', (m.Forget k).Get k w = some ((m.fn k w.user).1, m', w') ∧
      w'.invoked = w.invoked ++ [k] := by
  refine ⟨Function.update_same _ _ _, fun k' hk => Function.update_noteq hk _ _,
    fun hc => ?_, ?_, fun w => ?_⟩
  · have : Function.update m.cache k none = m.cache := by
      rw [← hc]
      exact Function.update_eq_self k m.cache
    simp only [Memo.Forget, this]
  · simp only [Memo.Forget, Function.update_idem]
  · obtain ⟨m', w', hg, hi, -⟩ :=
      Get_of_absent (m.Forget k) k w hidle (Function.update_same _ _ _)
    exact ⟨m', w', hg, hi⟩

theorem C9_Forget_witness :
    exMemo.sf.records 2 = none ∧
    (exMemo.Forget 2).cache 2 = none ∧
    (∀ k', k' ≠ 2 → (exMemo.Forget 2).cache k' = exMemo.cache k') ∧
    (exMemo.cache 2 = none → exMemo.Forget 2 = exMemo) ∧
    (exMemo.Forget 2).Forget 2 = exMemo.Forget 2 ∧
    ∀ w : World Nat Nat, ∃ m' w',
      (exMemo.Forget 2).Get 2 w = some ((exMemo.fn 2 w.user).1, m', w') ∧
      w'.invoked = w.invoked ++ [2] :=
  ⟨rfl, C9_Forget exMemo 2 rfl⟩

/-- C10 (Purge). After `Purge` the store is empty, the wrapped function, the
configuration and the registry of the coalescer are as before, and for every key `k`
with no record in the registry the next `Get k` invokes `fn` and returns what it
returned. -/
theorem C10_Purge [DecidableEq K] [Inhabited V] (m : Memo K V E σ) :
    (∀ k, m.Purge.cache k = none) ∧
    m.Purge.fn = m.fn ∧ m.Purge.cfg = m.cfg ∧ m.Purge.sf = m.sf ∧
    ∀ (k : K) (w : World K σ), m.sf.records k = none →
      ∃ m' w', m.Purge.Get k w = some ((m.fn k w.user).1, m', w') ∧
        w'.invoked = w.invoked ++ [k] := by
  refine ⟨fun _ => rfl, rfl, rfl, rfl, fun k w hidle => ?_⟩
  obtain ⟨m', w', hg, hi, -⟩ := Get_of_absent m.Purge k w hidle rfl
  exact ⟨m', w', hg, hi⟩

theorem C10_Purge_witness :
    ∃ m' w', exMemo.Purge.Get 2 exWorld = some ((exMemo.fn 2 exWorld.user).1, m', w') ∧
      w'.invoked = exWorld.invoked ++ [2] :=
  (C10_Purge exMemo).2.2.2.2 2 exWorld rfl

/-- C11 (call count equals distinct keys). From `New fn` with no option and an `fn` that
always succeeds, the `Get`s on the keys of any list, made one after the other, return;
the keys `fn` was invoked with are the distinct keys of the list, each once, so the
number of invocations is the number of distinct keys; the keys present in the store are
exactly the keys of the list; and when the value `fn` returns for a key is `val k`, the
`Get`s returned `(val k, nil)` for each `k` of the list in order. -/
theorem C11_call_count_distinct_keys [DecidableEq K] [Inhabited V]
    (fn : K → σ → (V × Option E) × σ) (hsucc : ∀ k u, (fn k u).1.2 = none)
    (keys : List K) (w0 : World K σ) :
    ∃ outs m w L, (New fn [] : Memo K V E σ).run (keys.map Op.get) w0 = some (outs, m, w) ∧
      w.invoked = w0.invoked ++ L ∧ L.Nodup ∧ (∀ k, k ∈ L ↔ k ∈ keys) ∧
      L.length = keys.dedup.length ∧
      (∀ k, (m.cache k).isSome = true ↔ k ∈ keys) ∧
      (∀ val : K → V, (∀ k u, (fn k u).1.1 = val k) →
        outs = keys.map fun k => (val k, none)) := by
  obtain ⟨outs, m, w, L, hrun, hinv, hnd, hmem, hkeys, hval⟩ :=
    run_gets keys (New fn [] : Memo K V E σ) w0 (New_quiet fn [])
      (fun k e he => by simp [New] at he) (le_refl _) hsucc
  have hmem' : ∀ k, k ∈ L ↔ k ∈ keys := fun k => by
    rw [hmem k]
    exact ⟨fun h => h.1, fun h => ⟨h, rfl⟩⟩
  refine ⟨outs, m, w, L, hrun, hinv, hnd, hmem', ?_, fun k => ?_, fun val hv => ?_⟩
  · refine List.Perm.length_eq ((List.perm_ext_iff_of_nodup hnd (List.nodup_dedup keys)).2
      fun k => ?_)
    rw [hmem' k, List.mem_dedup]
  · rw [hkeys k]
    simp [New]
  · exact hval val hv (fun k e he => by simp [New] at he)

theorem C11_call_count_distinct_keys_witness :
    ∃ outs m w L, (New exDouble [] : Memo Nat Nat String Nat).run
        ([1, 2, 1, 3, 2].map Op.get) exWorld = some (outs, m, w) ∧
      w.invoked = exWorld.invoked ++ L ∧ L.Nodup ∧ (∀ k, k ∈ L ↔ k ∈ [1, 2, 1, 3, 2]) ∧
      L.length = [1, 2, 1, 3, 2].dedup.length ∧
      (∀ k, (m.cache k).isSome = true ↔ k ∈ [1, 2, 1, 3, 2]) ∧
      (∀ val : Nat → Nat, (∀ k u, (exDouble k u).1.1 = val k) →
        outs = [1, 2, 1, 3, 2].map fun k => (val k, none)) :=
  C11_call_count_distinct_keys exDouble (fun _ _ => rfl) [1, 2, 1, 3, 2] exWorld

/-- C12 as stated fails: the wrapped function of the examples returns the value `7` with
its error on key `0`, and `Get 0` returns that `7`, not the zero value, with the
error. -/
theorem C12_zero_value_on_failure_counterexample :
    ∃ m' w', exMemo.Get 0 exWorld = some ((7, some "fail"), m', w') ∧
      (7 : Nat) ≠ (default : Nat) :=
  ⟨_, _, rfl, by decide⟩

/-- C12 (amended). With no record for `k` in the registry, whenever `Get k` returns a
non-nil error, the wrapped function was invoked by this call and the value returned
alongside the error is the value the wrapped function returned with it; it is the zero
value exactly when the wrapped function returned the zero value. -/
theorem C12_zero_value_on_failure [DecidableEq K] [Inhabited V] (m : Memo K V E σ)
    (k : K) (w : World K σ) (hidle : m.sf.records k = none) :
    ∃ out m' w', m.Get k w = some (out, m', w') ∧
      ∀ err, out.2 = some err →
        w'.invoked = w.invoked ++ [k] ∧ (m.fn k w.user).1 = (out.1, some err) ∧
        (out.1 = default ↔ (m.fn k w.user).1.1 = default) := by
  obtain ⟨out, m', w', hget, -, -, -, -, -, hcase⟩ := Get_cases m k w hidle
  refine ⟨out, m', w', hget, fun err herr => ?_⟩
  rcases hcase with ⟨e, -, hout, -⟩ | ⟨-, hout, hi, -⟩
  · rw [hout] at herr
    exact absurd herr (by simp)
  · refine ⟨hi, ?_, by rw [hout]⟩
    rw [← hout, ← herr]

theorem C12_zero_value_on_failure_witness :
    ∃ out m' w', exMemo.Get 0 exWorld = some (out, m', w') ∧
      ∀ err, out.2 = some err →
        w'.invoked = exWorld.invoked ++ [0] ∧
        (exMemo.fn 0 exWorld.user).1 = (out.1, some err) ∧
        (out.1 = default ↔ (exMemo.fn 0 exWorld.user).1.1 = default) :=
  C12_zero_value_on_failure exMemo 0 exWorld rfl

/-- C13 (no errors of its own). With no record for `k` in the registry and a clock that
does not run backwards, `Get k` returns, and it returns a non-nil error `err` if and
only if the store holds no valid entry for `k` and the invocation of `fn k` returns
`err`; when it returns an error, `fn` was invoked once by this call and the pair `Get`
returns is the pair `fn` returned. -/
theorem C13_no_errors_of_its_own [DecidableEq K] [Inhabited V] (m : Memo K V E σ)
    (k : K) (w : World K σ) (hidle : m.sf.records k = none) (hmono : Monotone w.clock) :
    ∃ out m' w', m.Get k w = some (out, m', w') ∧
      (∀ err, out.2 = some err ↔ stale m.cache k w ∧ (m.fn k w.user).1.2 = some err) ∧
      (out.2 ≠ none → w'.invoked = w.invoked ++ [k] ∧ out = (m.fn k w.user).1) := by
  obtain ⟨out, m', w', hget, -, -, -, -, -, hcase⟩ := Get_cases m k w hidle
  refine ⟨out, m', w', hget, fun err => ?_, fun hne => ?_⟩
  · rcases hcase with ⟨e, he, hout, -, -, -, w1, hcl, hr, hv⟩ | ⟨hst, hout, -⟩
    · constructor
      · intro herr
        rw [hout] at herr
        exact absurd herr (by simp)
      · rintro ⟨hst, -⟩
        rcases stale_later m.cache k w w1 hst hmono hcl hr with h | ⟨e', h, hx⟩
        · rw [h] at he
          exact absurd he (by simp)
        · rw [h] at he
          rw [Option.some.inj he, hv] at hx
          exact absurd hx (by simp)
    · rw [hout]
      exact ⟨fun h => ⟨hst, h⟩, fun h => h.2⟩
  · rcases hcase with ⟨e, -, hout, -⟩ | ⟨-, hout, hi, -⟩
    · rw [hout] at hne
      exact absurd rfl hne
    · exact ⟨hi, hout⟩

theorem C13_no_errors_of_its_own_witness :
    ∃ out m' w', exMemo.Get 0 exWorld = some (out, m', w') ∧
      (∀ err, out.2 = some err ↔
        stale exMemo.cache 0 exWorld ∧ (exMemo.fn 0 exWorld.user).1.2 = some err) ∧
      (out.2 ≠ none → w'.invoked = exWorld.invoked ++ [0] ∧
        out = (exMemo.fn 0 exWorld.user).1) :=
  C13_no_errors_of_its_own exMemo 0 exWorld rfl exWorld_mono

/-- C14 (transparency). Let the pair the wrapped function returns depend on the key
only: `fn k` returns `f k` whatever the user state. Then for every option list, every
sequence of `Get`, `Forget` and `Purge` calls made one after the other from
`New fn opts` and every clock (a non-decreasing one in particular), the calls return and
each `Get k` of the sequence returns exactly the pair `f k`. -/
theorem C14_transparency [DecidableEq K] [Inhabited V] (fn : K → σ → (V × Option E) × σ)
    (f : K → V × Option E) (hpure : ∀ k u, (fn k u).1 = f k) (opts : List Opt)
    (ops : List (Op K)) (w0 : World K σ) :
    ∃ m w, (New fn opts).run ops w0 = some ((asked ops).map f, m, w) :=
  run_pure f ops (New fn opts) w0 (New_quiet fn opts) hpure
    (fun k e he => by simp [New] at he)

theorem C14_transparency_witness :
    ∃ m w, (New exFn [WithTTL 5]).run [Op.get 1, Op.get 0, Op.forget 1, Op.get 1, Op.get 1,
        Op.purge, Op.get 0] exWorld =
      some ([(2, none), (7, some "fail"), (2, none), (2, none), (7, some "fail")], m, w) :=
  C14_transparency exFn (fun k => if k = 0 then (7, some "fail") else (2 * k, none))
    (fun k u => by unfold exFn; by_cases h : k = 0 <;> simp [h]) [WithTTL 5]
    [Op.get 1, Op.get 0, Op.forget 1, Op.get 1, Op.get 1, Op.purge, Op.get 0] exWorld

/-- C15 as stated fails: with a lifetime of 5 ns and a clock that reads 100, 110, ...,
the function returned by `Do` called twice on key `1`, for which the wrapped function
succeeds, invokes the wrapped function twice. -/
theorem C15_Do_is_Get_counterexample :
    ∃ m w, callEach (Do exDouble [WithTTL 5]).2 (Do exDouble [WithTTL 5]).1 [1, 1] exWorld =
        some ([(2, none), (2, none)], m, w) ∧
      w.invoked = exWorld.invoked ++ [1, 1] :=
  ⟨_, _, rfl, rfl⟩

/-- C15 (amended). For every `fn` and option list `opts`, `Do fn opts` is the `Get` of
the memo `New fn opts`: called on the keys of any list, one after the other, it returns
what the `Get`s of `New fn opts` on these keys return and leaves the same memo and world
(so the same invocations of `fn`). Called twice on a key for which `fn` succeeds, it
invokes `fn` once and returns the same pair twice, provided the entry stored by the
first call is not expired at the second: `ttl <= 0`, or the reading of the second call is
not later than the reading taken when the entry was stored plus `ttl`. -/
theorem C15_Do_is_Get [DecidableEq K] [Inhabited V] (fn : K → σ → (V × Option E) × σ)
    (opts : List Opt) :
    (Do fn opts).1 = New fn opts ∧
    (∀ (keys : List K) (w : World K σ),
      callEach (Do fn opts).2 (Do fn opts).1 keys w =
        (New fn opts).run (keys.map Op.get) w) ∧
    (∀ (k : K) (w : World K σ), (fn k w.user).1.2 = none →
      ((New fn opts : Memo K V E σ).cfg.ttl ≤ 0 ∨
        (w.clock (w.reads + 1) : Int) ≤
          (w.clock w.reads : Int) + (New fn opts : Memo K V E σ).cfg.ttl) →
      ∃ m' w', callEach (Do fn opts).2 (Do fn opts).1 [k, k] w =
          some ([(fn k w.user).1, (fn k w.user).1], m', w') ∧
        w'.invoked = w.invoked ++ [k]) :=
  ⟨rfl, fun keys w => callEach_Get keys (New fn opts) w,
    fun k w hfn hfresh => Get_twice (New fn opts) k w rfl rfl hfn hfresh⟩

theorem C15_Do_is_Get_witness :
    ∃ m' w', callEach (Do exDouble [WithTTL 15]).2 (Do exDouble [WithTTL 15]).1 [1, 1]
        exWorld = some ([(exDouble 1 exWorld.user).1, (exDouble 1 exWorld.user).1], m', w') ∧
      w'.invoked = exWorld.invoked ++ [1] :=
  (C15_Do_is_Get exDouble [WithTTL 15]).2.2 1 exWorld rfl (Or.inr (by decide))

/-- C16 (coalescer, uncontended call). For every registry, the nil one included, that
holds no record for `k`, `do k producer` returns, the pair it returns is the pair the
producer returned, the state the producer works on is the one a single run of it leaves,
and on return the registry holds no record for `k` and the records of all keys are as
before. -/
theorem C16_do_uncontended {ρ : Type} [DecidableEq K] [Inhabited V]
    (sf : singleflight K V E) (k : K) (producer : ρ → (V × Option E) × ρ) (r : ρ)
    (hidle : sf.records k = none) :
    ∃ sf', sf.Do k producer r = some ((producer r).1, sf', (producer r).2) ∧
      sf'.records k = none ∧ ∀ k', sf'.records k' = sf.records k' :=
  ⟨⟨some sf.records⟩, Do_of_idle sf k producer r hidle, hidle, fun _ => rfl⟩

theorem C16_do_uncontended_witness :
    (⟨none⟩ : singleflight Nat Nat String).records 3 = none ∧
    ∃ sf', (⟨none⟩ : singleflight Nat Nat String).Do 3
        (fun n : Nat => ((7, some "fail"), n + 1)) 0 = some ((7, some "fail"), sf', 1) ∧
      sf'.records 3 = none ∧
      ∀ k', sf'.records k' = (⟨none⟩ : singleflight Nat Nat String).records k' :=
  ⟨rfl, C16_do_uncontended ⟨none⟩ 3 (fun n : Nat => ((7, some "fail"), n + 1)) 0 rfl⟩

/-- C17 (store invariant). After every finite sequence of `Get`, `Forget` and `Purge`
calls from `New fn opts` (the calls return), each entry stored under a key `k` was
stored after an invocation of `fn` for `k` made during the sequence, holds a value `v`
such that an invocation `fn k` returns `(v, nil)` (so `f k = (v, nil)` when `fn k`
always returns `f k`), and has the zero `expiresAt` exactly when `ttl <= 0`. -/
theorem C17_store_invariant [DecidableEq K] [Inhabited V]
    (fn : K → σ → (V × Option E) × σ) (opts : List Opt) (ops : List (Op K))
    (w0 : World K σ) :
    ∃ outs m w L, (New fn opts : Memo K V E σ).run ops w0 = some (outs, m, w) ∧
      w.invoked = w0.invoked ++ L ∧
      ∀ k e, m.cache k = some e →
        k ∈ L ∧ (∃ u, (fn k u).1 = (e.val, none)) ∧
        (∀ f : K → V × Option E, (∀ k u, (fn k u).1 = f k) → f k = (e.val, none)) ∧
        (e.expiresAt = Time.zero ↔ (New fn opts : Memo K V E σ).cfg.ttl ≤ 0) := by
  obtain ⟨outs, m, w, hrun, L, hL, hent⟩ :=
    run_store fn (New fn opts : Memo K V E σ).cfg w0.invoked ops (New fn opts) w0
      (New_quiet fn opts) rfl rfl ⟨[], by simp, fun k e he => by simp [New] at he⟩
  refine ⟨outs, m, w, L, hrun, hL, fun k e he => ?_⟩
  obtain ⟨hmem, ⟨u, hu⟩, hexp⟩ := hent k e he
  exact ⟨hmem, ⟨u, hu⟩, fun f hf => by rw [← hf k u, hu], hexp⟩

theorem C17_store_invariant_witness :
    ∃ outs m w L, (New exFn [WithTTL 5] : Memo Nat Nat String Nat).run
        [Op.get 1, Op.get 0, Op.forget 2, Op.get 3] exWorld = some (outs, m, w) ∧
      w.invoked = exWorld.invoked ++ L ∧
      ∀ k e, m.cache k = some e →
        k ∈ L ∧ (∃ u, (exFn k u).1 = (e.val, none)) ∧
        (∀ f : Nat → Nat × Option String, (∀ k u, (exFn k u).1 = f k) →
          f k = (e.val, none)) ∧
        (e.expiresAt = Time.zero ↔
          (New exFn [WithTTL 5] : Memo Nat Nat String Nat).cfg.ttl ≤ 0) :=
  C17_store_invariant exFn [WithTTL 5] [Op.get 1, Op.get 0, Op.forget 2, Op.get 3] exWorld

/-- C18 (key locality). For every memo and keys `k ≠ k'`: a `Get k` that returns, be it
a hit, a successful miss or a failed miss, leaves the entry of `k'` (its presence, value
and `expiresAt`), the configuration and the wrapped function as they were, and it does
return when the registry holds no record for `k`; `Forget k` does the same. -/
theorem C18_key_locality [DecidableEq K] [Inhabited V] (m : Memo K V E σ) (k k' : K)
    (hk : k' ≠ k) :
    (∀ (w : World K σ) out m' w', m.Get k w = some (out, m', w') →
      m'.cache k' = m.cache k' ∧ m'.cfg = m.cfg ∧ m'.fn = m.fn) ∧
    (m.sf.records k = none → ∀ w : World K σ, ∃ out m' w', m.Get k w = some (out, m', w')) ∧
    (m.Forget k).cache k' = m.cache k' ∧ (m.Forget k).cfg = m.cfg ∧
    (m.Forget k).fn = m.fn := by
  refine ⟨fun w out m' w' hget => ?_, fun hidle w => ?_, Function.update_noteq hk _ _,
    rfl, rfl⟩
  · obtain ⟨hfn, hcfg, hfr⟩ := Get_frame_any m k w out m' w' hget
    exact ⟨hfr k' hk, hcfg, hfn⟩
  · obtain ⟨out, m', w', hget, -⟩ := Get_frame m k w hidle
    exact ⟨out, m', w', hget⟩

theorem C18_key_locality_witness :
    (∀ (w : World Nat Nat) out m' w', exMemo.Get 1 w = some (out, m', w') →
      m'.cache 2 = exMemo.cache 2 ∧ m'.cfg = exMemo.cfg ∧ m'.fn = exMemo.fn) ∧
    (exMemo.sf.records 1 = none →
      ∀ w : World Nat Nat, ∃ out m' w', exMemo.Get 1 w = some (out, m', w')) ∧
    (exMemo.Forget 1).cache 2 = exMemo.cache 2 ∧ (exMemo.Forget 1).cfg = exMemo.cfg ∧
    (exMemo.Forget 1).fn = exMemo.fn :=
  C18_key_locality exMemo 1 2 (by decide)

end Memoize
